import Mathlib

/-!
# Verification of the DemoGrid thread-dependency coordinator

Shallow embedding of `src/demogrid/common/utils.py` (classes `DemoGridThread`
and `MultiThread`).  The Python object state is modelled explicitly:

* a `TaskEntry` holds the per-thread mutable fields of `DemoGridThread`
  (`depends`, the started flag of `threading.Thread`, `status`, `exception`,
  `stack_trace`);
* an `MTState` holds the fields of `MultiThread`
  (`threads` — the name-keyed dictionary, `num_threads`, `done_threads`,
  the `abort` event and the `all_done` event);
* the lock-protected callbacks `thread_success` / `thread_failure` /
  `abort_dependents` become functions `MTState → … → MTState`; one
  coordinator callback (which the source runs under the single global lock)
  is one atomic transition of a small-step relation `Step`.

Status codes follow the source: `-1` not finished (pending or running),
`0` succeeded, `1` failed, `2` aborted, `3` skipped because a dependency
failed.  A task is *pending* when `started = false ∧ status = -1`,
*running* when `started = true ∧ status = -1`.

Dependencies: in the source, `depends` is an object reference and the
scheduler compares `th.depends == thread` by object identity; names are the
dictionary keys, so under the spec's registration discipline (names unique,
dependency previously registered) object identity coincides with name
equality, and `depends` is modelled as an optional name (the representation
the spec's design notes themselves recommend).

`exception` is modelled as `Option (Bool × String)`: the source stores the
raised exception object, and the only thing the coordinator inspects is
whether it `isinstance` of `ThreadAbortException` (the `Bool`) plus its
human-readable message (the `String`).
-/

/-- Per-thread mutable state of a `DemoGridThread`. -/
structure TaskEntry where
  depends : Option String
  started : Bool
  status : Int
  exception : Option (Bool × String)
  stack_trace : Option String
  deriving DecidableEq, Repr

/-- State of a `MultiThread` object: the name-keyed thread dictionary plus
the counters and events of the coordinator. -/
structure MTState where
  threads : List (String × TaskEntry)
  num_threads : Nat
  done_threads : Int
  abort : Bool
  all_done : Bool
  deriving DecidableEq, Repr

/-- Association-list lookup on the thread dictionary (first match). -/
def alookup : List (String × TaskEntry) → String → Option TaskEntry
  | [], _ => none
  | p :: l, n => if p.1 = n then some p.2 else alookup l n

/-- Update the entry stored under key `n` in place. -/
def updThread (s : MTState) (n : String) (f : TaskEntry → TaskEntry) : MTState :=
  { s with threads := s.threads.map (fun p => if p.1 = n then (p.1, f p.2) else p) }

/-- `thread.status = v`. -/
def setStatus (s : MTState) (n : String) (v : Int) : MTState :=
  updThread s n (fun e => { e with status := v })

/-- `thread.start()` — the thread becomes a running unit of execution. -/
def startThread (s : MTState) (n : String) : MTState :=
  updThread s n (fun e => { e with started := true })

/-- `self.done_threads += 1`. -/
def incDone (s : MTState) : MTState :=
  { s with done_threads := s.done_threads + 1 }

/-- `DemoGridThread.__init__`: `status = -1`, no exception, not started. -/
def newThread (depends : Option String) : TaskEntry :=
  ⟨depends, false, -1, none, none⟩

/-- Python dictionary insertion `self.threads[name] = thread`: replaces the
value when the key is present, appends otherwise. -/
def dictInsert (l : List (String × TaskEntry)) (n : String) (e : TaskEntry) :
    List (String × TaskEntry) :=
  if l.any (fun p => p.1 = n) then
    l.map (fun p => if p.1 = n then (p.1, e) else p)
  else
    l ++ [(n, e)]

/-- `MultiThread.__init__`. -/
def MTinit : MTState := ⟨[], 0, 0, false, false⟩

/-- `MultiThread.add_thread`: store under the thread's name (silently
replacing any previous entry with that name), `num_threads += 1`. -/
def add_thread (s : MTState) (name : String) (depends : Option String) : MTState :=
  { s with
    threads := dictInsert s.threads name (newThread depends)
    num_threads := s.num_threads + 1 }

/-- Build the coordinator state from a registration list
(name, optional dependency name). -/
def mkState (regs : List (String × Option String)) : MTState :=
  regs.foldl (fun s r => add_thread s r.1 r.2) MTinit

/-- Entry of `MultiThread.run()`: `self.done_threads = 0` (the start of the
no-dependency threads is modelled by `Step.start` transitions). -/
def runStart (s : MTState) : MTState := { s with done_threads := 0 }

/-- `[th for th in self.threads.values() if th.depends == thread]`,
as the list of names. -/
def dependentsOf (s : MTState) (n : String) : List String :=
  (s.threads.filter (fun p => p.2.depends = some n)).map Prod.fst

/-- `MultiThread.abort_dependents`: each dependent gets `status = 3`,
`done_threads += 1`, and its own dependents are cascaded recursively.
The source recursion is unbounded; here it carries fuel, and every call
site passes `threads.length`, which is proved sufficient on acyclic
dependency graphs (lemma `abort_dependents_spec`). -/
def abort_dependents (fuel : Nat) (n : String) (s : MTState) : MTState :=
  match fuel with
  | 0 => s
  | fuel' + 1 =>
      (dependentsOf s n).foldl
        (fun acc m => abort_dependents fuel' m (incDone (setStatus acc m 3))) s

/-- `MultiThread.thread_success` (body under `self.lock`): increment
`done_threads`, start every dependent of the finished thread, and set
`all_done` when `done_threads == num_threads`. -/
def thread_success (s : MTState) (n : String) : MTState :=
  let s1 := incDone s
  let s2 := (dependentsOf s1 n).foldl (fun acc m => startThread acc m) s1
  if s2.done_threads = (s2.num_threads : Int) then { s2 with all_done := true } else s2

/-- `isinstance(thread.exception, ThreadAbortException)` for the thread
stored under `n`. -/
def isAbortExcOf (s : MTState) (n : String) : Bool :=
  match alookup s.threads n with
  | some e =>
      match e.exception with
      | some (ab, _) => ab
      | none => false
  | none => false

/-- `MultiThread.thread_failure` (body under `self.lock`): if the stored
exception is not a `ThreadAbortException`, set the global `abort` event
(the status stays `1`); otherwise set `status = 2`.  Then increment
`done_threads`, cascade the dependents, and set `all_done` when
`done_threads == num_threads`. -/
def thread_failure (s : MTState) (n : String) : MTState :=
  let s1 := if isAbortExcOf s n then setStatus s n 2 else { s with abort := true }
  let s2 := incDone s1
  let s3 := abort_dependents s2.threads.length n s2
  if s3.done_threads = (s3.num_threads : Int) then { s3 with all_done := true } else s3

/-- `DemoGridThread.run`, normal-completion path: `self.status = 0` then
`self.multi.thread_success(self)`. -/
def finishSuccess (s : MTState) (n : String) : MTState :=
  thread_success (setStatus s n 0) n

/-- `DemoGridThread.run`, exception path: record the exception and its
formatted traceback, set `self.status = 1`, then
`self.multi.thread_failure(self)`.  `isAb` tells whether the exception is a
`ThreadAbortException`. -/
def finishFailure (s : MTState) (n : String) (isAb : Bool) (msg tb : String) : MTState :=
  thread_failure
    (setStatus
      (updThread s n (fun e =>
        { e with exception := some (isAb, msg), stack_trace := some tb })) n 1) n

/-- `MultiThread.all_success`: `all([t.status == 0 for t in threads.values()])`. -/
def all_success (s : MTState) : Bool :=
  s.threads.all (fun p => p.2.status = 0)

/-- `MultiThread.get_exceptions`: the name-keyed mapping
`{t.name: (t.exception, t.stack_trace)}` over the threads with `status == 1`. -/
def get_exceptions (s : MTState) : List (String × (Option (Bool × String) × Option String)) :=
  (s.threads.filter (fun p => p.2.status = 1)).map
    (fun p => (p.1, (p.2.exception, p.2.stack_trace)))

/-! ## The dependency skeleton

The keys and `depends` fields never change while the coordinator runs; the
static part of the state is extracted as a *skeleton* and the ancestor
relation is defined over it. -/

/-- The static part of the thread dictionary: name and dependency name. -/
def skel (s : MTState) : List (String × Option String) :=
  s.threads.map (fun p => (p.1, p.2.depends))

/-- Lookup of a dependency name in a skeleton. -/
def parentOf : List (String × Option String) → String → Option String
  | [], _ => none
  | p :: l, n => if p.1 = n then p.2 else parentOf l n

/-- Fueled test: is `a` a strict ancestor of `t` along `depends` edges? -/
def isDescFuel (sk : List (String × Option String)) : Nat → String → String → Bool
  | 0, _, _ => false
  | fuel + 1, t, a =>
      match parentOf sk t with
      | none => false
      | some d => (d = a) || isDescFuel sk fuel d a

/-- `isDesc sk t a`: task `t` directly or transitively depends on task `a`. -/
def isDesc (sk : List (String × Option String)) (t a : String) : Bool :=
  isDescFuel sk sk.length t a

/-- The dependency graph is a single-parent forest: a rank function
witnesses acyclicity (every dependency is registered and has a strictly
smaller rank), with ranks of registered names below the number of tasks. -/
def RankOK (sk : List (String × Option String)) (rk : String → Nat) : Prop :=
  (∀ p ∈ sk, ∀ d, p.2 = some d → (∃ q ∈ sk, q.1 = d) ∧ rk d < rk p.1) ∧
  (∀ p ∈ sk, rk p.1 < sk.length)

/-! ## The small-step transition relation

One transition is one event the coordinator serialises: the caller's
`run()` starting a no-dependency thread, or a thread body finishing and
running its (lock-protected) callback.  `P` restricts the messages of
genuine (non-abort) failures; `fun _ => True` places no restriction. -/

/-- One atomic scheduler event. -/
inductive Step (P : String → Prop) : MTState → MTState → Prop
  | start (s : MTState) (n : String) (e : TaskEntry) :
      alookup s.threads n = some e → e.depends = none → e.started = false →
      Step P s (startThread s n)
  | finishOk (s : MTState) (n : String) (e : TaskEntry) :
      alookup s.threads n = some e → e.started = true → e.status = -1 →
      Step P s (finishSuccess s n)
  | finishErr (s : MTState) (n : String) (e : TaskEntry) (isAb : Bool) (msg tb : String) :
      alookup s.threads n = some e → e.started = true → e.status = -1 →
      (isAb = false → P msg) →
      Step P s (finishFailure s n isAb msg tb)

/-- Executions: reflexive-transitive closure of `Step`. -/
def Reach (P : String → Prop) (s0 s : MTState) : Prop :=
  Relation.ReflTransGen (Step P) s0 s

/-- States reachable from registering `regs` and entering `run()`. -/
def Reachable (P : String → Prop) (regs : List (String × Option String)) (s : MTState) : Prop :=
  Reach P (runStart (mkState regs)) s

/-- No scheduler event is possible any more (the run has settled). -/
def Stuck (s : MTState) : Prop :=
  ∀ s', ¬ Step (fun _ => True) s s'

/-- Number of threads currently in status `3`
(`SkippedDueToDependencyFailure`), as an integer. -/
def skippedCount (s : MTState) : Int :=
  ((s.threads.countP (fun p => p.2.status = 3)) : Int)

/-- Termination measure of the scheduler: twice the number of unfinished
threads plus the number of unstarted threads.  Every scheduler event
strictly decreases it. -/
def schedMeasure (s : MTState) : Nat :=
  2 * s.threads.countP (fun p => p.2.status = -1)
    + s.threads.countP (fun p => p.2.started = false)

/-- Reachability invariant of the coordinator over a fixed skeleton `sk`.
`P` restricts the messages of genuine failures (`fun _ => True` for no
restriction).  The fields tie the per-thread statuses, the started flags,
the captured exceptions, the done-counter and the `all_done` event
together. -/
structure CoordInv (P : String → Prop) (sk : List (String × Option String))
    (s : MTState) : Prop where
  hskel : skel s = sk
  nodup : (s.threads.map Prod.fst).Nodup
  statusRange : ∀ p ∈ s.threads, p.2.status = -1 ∨ p.2.status = 0
      ∨ p.2.status = 1 ∨ p.2.status = 2 ∨ p.2.status = 3
  notStarted : ∀ p ∈ s.threads, p.2.started = false →
      p.2.status = -1 ∨ p.2.status = 3
  skipNotStarted : ∀ p ∈ s.threads, p.2.status = 3 → p.2.started = false
  startedDep : ∀ p ∈ s.threads, p.2.started = true → ∀ d, p.2.depends = some d →
      ∃ ed, alookup s.threads d = some ed ∧ ed.status = 0
  succChildren : ∀ p ∈ s.threads, p.2.status = 0 →
      ∀ q ∈ s.threads, q.2.depends = some p.1 → q.2.started = true
  badChildren : ∀ p ∈ s.threads,
      (p.2.status = 1 ∨ p.2.status = 2 ∨ p.2.status = 3) →
      ∀ q ∈ s.threads, q.2.depends = some p.1 → q.2.status = 3
  skipParent : ∀ q ∈ s.threads, q.2.status = 3 →
      ∃ d ed, q.2.depends = some d ∧ alookup s.threads d = some ed ∧
        (ed.status = 1 ∨ ed.status = 2 ∨ ed.status = 3)
  excFail : ∀ p ∈ s.threads, p.2.status = 1 →
      ∃ m t, p.2.exception = some (false, m) ∧ p.2.stack_trace = some t ∧ P m
  excAbort : ∀ p ∈ s.threads, p.2.status = 2 →
      ∃ m t, p.2.exception = some (true, m) ∧ p.2.stack_trace = some t
  excNone : ∀ p ∈ s.threads,
      (p.2.status = -1 ∨ p.2.status = 0 ∨ p.2.status = 3) →
      p.2.exception = none ∧ p.2.stack_trace = none
  doneCount : s.done_threads
      = ((s.threads.countP (fun p => p.2.status ≠ -1)) : Int)
  allDone : s.all_done = true ↔
      (s.done_threads = (s.num_threads : Int) ∧ 0 < s.num_threads)
  numGe : s.threads.length ≤ s.num_threads

/-- Effect summary of a cascade: every entry whose name satisfies `cond` is
marked skipped (status `3`), `done_threads` moves in step with the number of
newly-skipped entries, and nothing else changes. -/
def CascadeOut (s r : MTState) (cond : String → Bool) : Prop :=
  r.threads = s.threads.map
      (fun p => if cond p.1 then (p.1, { p.2 with status := 3 }) else p)
  ∧ r.done_threads + skippedCount s = s.done_threads + skippedCount r
  ∧ r.num_threads = s.num_threads
  ∧ r.abort = s.abort
  ∧ r.all_done = s.all_done

/-! ## Basic lemmas: lookup, update, skeleton -/

theorem alookup_mem {l : List (String × TaskEntry)} {n : String} {e : TaskEntry}
    (h : alookup l n = some e) : (n, e) ∈ l := by
  induction l with
  | nil => simp [alookup] at h
  | cons p l ih =>
    simp only [alookup] at h
    by_cases hp : p.1 = n
    · rw [if_pos hp] at h
      injection h with h2
      subst h2
      subst hp
      rw [Prod.mk.eta]
      exact List.mem_cons_self p l
    · rw [if_neg hp] at h
      exact List.mem_cons_of_mem _ (ih h)

theorem mem_alookup {l : List (String × TaskEntry)} {n : String} {e : TaskEntry}
    (hnd : (l.map Prod.fst).Nodup) (h : (n, e) ∈ l) : alookup l n = some e := by
  induction l with
  | nil => cases h
  | cons p l ih =>
    rw [List.map_cons, List.nodup_cons] at hnd
    rcases List.mem_cons.mp h with h1 | h1
    · rw [← h1]
      simp [alookup]
    · have hp : p.1 ≠ n := by
        intro hc
        exact hnd.1 (hc ▸ List.mem_map_of_mem Prod.fst h1)
      simp only [alookup, if_neg hp]
      exact ih hnd.2 h1

theorem alookup_isSome_of_key_mem {l : List (String × TaskEntry)} {n : String}
    (h : n ∈ l.map Prod.fst) : ∃ e, alookup l n = some e := by
  induction l with
  | nil => cases h
  | cons p l ih =>
    by_cases hp : p.1 = n
    · exact ⟨p.2, by simp [alookup, hp]⟩
    · have : n ∈ l.map Prod.fst := by
        rcases List.mem_map.mp h with ⟨q, hq, hqn⟩
        rcases List.mem_cons.mp hq with h1 | h1
        · exact absurd (h1 ▸ hqn) hp
        · exact hqn ▸ List.mem_map_of_mem Prod.fst h1
      rcases ih this with ⟨e, he⟩
      exact ⟨e, by simp [alookup, hp, he]⟩

theorem alookup_map_upd_self (l : List (String × TaskEntry)) (n : String)
    (f : TaskEntry → TaskEntry) :
    alookup (l.map (fun p => if p.1 = n then (p.1, f p.2) else p)) n
      = (alookup l n).map f := by
  induction l with
  | nil => rfl
  | cons p l ih =>
    by_cases hp : p.1 = n
    · simp [alookup, hp]
    · simp [alookup, hp, ih]

theorem alookup_map_upd_other (l : List (String × TaskEntry)) (n : String)
    (f : TaskEntry → TaskEntry) (m : String) (hm : m ≠ n) :
    alookup (l.map (fun p => if p.1 = n then (p.1, f p.2) else p)) m
      = alookup l m := by
  induction l with
  | nil => rfl
  | cons p l ih =>
    by_cases hp : p.1 = n
    · have hpm : p.1 ≠ m := fun hc => hm ((hc.symm.trans hp).symm ▸ rfl)
      simp only [List.map_cons, if_pos hp, alookup, if_neg hpm]
      exact ih
    · by_cases hpm : p.1 = m
      · simp [alookup, hp, hpm, hm]
      · simp only [List.map_cons, if_neg hp, alookup, if_neg hpm]
        exact ih

theorem alookup_updThread_self (s : MTState) (n : String) (f : TaskEntry → TaskEntry) :
    alookup (updThread s n f).threads n = (alookup s.threads n).map f :=
  alookup_map_upd_self s.threads n f

theorem alookup_updThread_other (s : MTState) (n : String) (f : TaskEntry → TaskEntry)
    (m : String) (hm : m ≠ n) :
    alookup (updThread s n f).threads m = alookup s.threads m :=
  alookup_map_upd_other s.threads n f m hm

theorem skel_updThread (s : MTState) (n : String) (f : TaskEntry → TaskEntry)
    (hf : ∀ e, (f e).depends = e.depends) : skel (updThread s n f) = skel s := by
  unfold skel updThread
  simp only [List.map_map]
  apply List.map_congr_left
  intro p _
  by_cases h : p.1 = n <;> simp [Function.comp, h, hf]

theorem skel_setStatus (s : MTState) (n : String) (v : Int) :
    skel (setStatus s n v) = skel s :=
  skel_updThread s n _ (fun _ => rfl)

theorem skel_startThread (s : MTState) (n : String) :
    skel (startThread s n) = skel s :=
  skel_updThread s n _ (fun _ => rfl)

theorem skel_incDone (s : MTState) : skel (incDone s) = skel s := rfl

theorem keys_eq_skel (s : MTState) :
    s.threads.map Prod.fst = (skel s).map Prod.fst := by
  unfold skel
  rw [List.map_map]
  rfl

theorem skel_length (s : MTState) : (skel s).length = s.threads.length :=
  List.length_map _ _

theorem parentOf_mapSkel (l : List (String × TaskEntry)) (n : String) :
    parentOf (l.map (fun p => (p.1, p.2.depends))) n
      = (alookup l n).bind (fun e => e.depends) := by
  induction l with
  | nil => rfl
  | cons p l ih =>
    by_cases h : p.1 = n <;> simp [parentOf, alookup, h, ih]

theorem parentOf_skel (s : MTState) (n : String) :
    parentOf (skel s) n = (alookup s.threads n).bind (fun e => e.depends) :=
  parentOf_mapSkel s.threads n

theorem countP_map_upd {l : List (String × TaskEntry)} {n : String} {e : TaskEntry}
    (q : String × TaskEntry → Bool) (f : TaskEntry → TaskEntry)
    (hnd : (l.map Prod.fst).Nodup) (he : alookup l n = some e) :
    (l.map (fun p => if p.1 = n then (p.1, f p.2) else p)).countP q
      + (if q (n, e) then 1 else 0)
    = l.countP q + (if q (n, f e) then 1 else 0) := by
  induction l with
  | nil => simp [alookup] at he
  | cons p l ih =>
    rw [List.map_cons, List.nodup_cons] at hnd
    simp only [alookup] at he
    by_cases hp : p.1 = n
    · rw [if_pos hp] at he
      injection he with he2
      have hrest : l.map (fun p => if p.1 = n then (p.1, f p.2) else p) = l := by
        have hid : ∀ p2 ∈ l, (if p2.1 = n then (p2.1, f p2.2) else p2) = p2 := by
          intro p2 hp2
          rw [if_neg]
          intro hc
          exact hnd.1 (by rw [hp, ← hc]; exact List.mem_map_of_mem Prod.fst hp2)
        rw [List.map_congr_left hid, List.map_id']
      simp only [List.map_cons, if_pos hp, hrest]
      rw [List.countP_cons, List.countP_cons]
      have hqp : q p = q (n, e) := by rw [← hp, ← he2, Prod.mk.eta]
      have hqfp : q (p.1, f p.2) = q (n, f e) := by rw [hp, he2]
      rw [hqp, hqfp]
      exact Nat.add_right_comm _ _ _
    · rw [if_neg hp] at he
      simp only [List.map_cons, if_neg hp]
      rw [List.countP_cons, List.countP_cons]
      have hih := ih hnd.2 he
      omega

theorem countP_updThread {s : MTState} {n : String} {e : TaskEntry}
    (q : String × TaskEntry → Bool) (f : TaskEntry → TaskEntry)
    (hnd : (s.threads.map Prod.fst).Nodup) (he : alookup s.threads n = some e) :
    (updThread s n f).threads.countP q + (if q (n, e) then 1 else 0)
      = s.threads.countP q + (if q (n, f e) then 1 else 0) :=
  countP_map_upd q f hnd he

/-! ## Registration lemmas -/

theorem dictInsert_keys (l : List (String × TaskEntry)) (n : String) (e : TaskEntry) :
    (dictInsert l n e).map Prod.fst
      = if l.any (fun p => p.1 = n) then l.map Prod.fst else l.map Prod.fst ++ [n] := by
  unfold dictInsert
  split
  · rw [List.map_map]
    apply List.map_congr_left
    intro p _
    by_cases h : p.1 = n <;> simp [h]
  · simp

theorem dictInsert_keys_nodup (l : List (String × TaskEntry)) (n : String) (e : TaskEntry)
    (h : (l.map Prod.fst).Nodup) : ((dictInsert l n e).map Prod.fst).Nodup := by
  rw [dictInsert_keys]
  by_cases hp : l.any (fun p => p.1 = n)
  · rw [if_pos hp]
    exact h
  · rw [if_neg hp]
    have : n ∉ l.map Prod.fst := by
      intro hc
      rcases List.mem_map.mp hc with ⟨p, hpl, hpn⟩
      exact hp (List.any_eq_true.mpr ⟨p, hpl, by simp [hpn]⟩)
    simp [List.nodup_append, h, this]

theorem dictInsert_mem {l : List (String × TaskEntry)} {n : String} {e : TaskEntry}
    {p : String × TaskEntry} (h : p ∈ dictInsert l n e) : p ∈ l ∨ p = (n, e) := by
  unfold dictInsert at h
  split at h
  · rcases List.mem_map.mp h with ⟨p2, hp2, heq⟩
    by_cases hk : p2.1 = n
    · right
      rw [← heq, if_pos hk, hk]
    · left
      rw [← heq, if_neg hk]
      exact hp2
  · rcases List.mem_append.mp h with h1 | h1
    · exact Or.inl h1
    · exact Or.inr (by simpa using h1)

theorem dictInsert_length (l : List (String × TaskEntry)) (n : String) (e : TaskEntry) :
    (dictInsert l n e).length
      = if l.any (fun p => p.1 = n) then l.length else l.length + 1 := by
  unfold dictInsert
  split
  · exact List.length_map _ _
  · simp

theorem dictInsert_key_mem (l : List (String × TaskEntry)) (n : String) (e : TaskEntry) :
    n ∈ (dictInsert l n e).map Prod.fst := by
  rw [dictInsert_keys]
  by_cases hp : l.any (fun p => p.1 = n)
  · rw [if_pos hp]
    rcases List.any_eq_true.mp hp with ⟨p, hpl, hpn⟩
    exact (of_decide_eq_true hpn) ▸ List.mem_map_of_mem Prod.fst hpl
  · rw [if_neg hp]
    simp

theorem dictInsert_key_mono {l : List (String × TaskEntry)} {m : String}
    (n : String) (e : TaskEntry) (h : m ∈ l.map Prod.fst) :
    m ∈ (dictInsert l n e).map Prod.fst := by
  rw [dictInsert_keys]
  by_cases hp : l.any (fun p => p.1 = n)
  · rwa [if_pos hp]
  · rw [if_neg hp]
    exact List.mem_append_left _ h

theorem foldl_add_num (regs : List (String × Option String)) (s : MTState) :
    (regs.foldl (fun s r => add_thread s r.1 r.2) s).num_threads
      = s.num_threads + regs.length := by
  induction regs generalizing s with
  | nil => simp
  | cons r regs ih =>
    rw [List.foldl_cons, ih]
    simp only [add_thread, List.length_cons]
    omega

theorem mkState_num (regs : List (String × Option String)) :
    (mkState regs).num_threads = regs.length := by
  have := foldl_add_num regs MTinit
  simpa [mkState, MTinit] using this

theorem foldl_add_len_le (regs : List (String × Option String)) (s : MTState) :
    (regs.foldl (fun s r => add_thread s r.1 r.2) s).threads.length
      ≤ s.threads.length + regs.length := by
  induction regs generalizing s with
  | nil => simp
  | cons r regs ih =>
    rw [List.foldl_cons]
    have h1 := ih (add_thread s r.1 r.2)
    have h2 : (add_thread s r.1 r.2).threads.length ≤ s.threads.length + 1 := by
      simp only [add_thread, dictInsert_length]
      split <;> omega
    simp only [List.length_cons]
    omega

theorem mkState_len_le (regs : List (String × Option String)) :
    (mkState regs).threads.length ≤ regs.length := by
  have := foldl_add_len_le regs MTinit
  simpa [mkState, MTinit] using this

theorem foldl_add_keys_nodup (regs : List (String × Option String)) (s : MTState)
    (h : (s.threads.map Prod.fst).Nodup) :
    ((regs.foldl (fun s r => add_thread s r.1 r.2) s).threads.map Prod.fst).Nodup := by
  induction regs generalizing s with
  | nil => exact h
  | cons r regs ih =>
    rw [List.foldl_cons]
    exact ih _ (dictInsert_keys_nodup _ _ _ h)

theorem mkState_keys_nodup (regs : List (String × Option String)) :
    ((mkState regs).threads.map Prod.fst).Nodup :=
  foldl_add_keys_nodup regs MTinit List.Pairwise.nil

/-- All registered entries are fresh: not started, status `-1`, no captured
exception or trace. -/
def FreshEntry (e : TaskEntry) : Prop :=
  e.started = false ∧ e.status = -1 ∧ e.exception = none ∧ e.stack_trace = none

theorem foldl_add_fresh (regs : List (String × Option String)) (s : MTState)
    (h : ∀ p ∈ s.threads, FreshEntry p.2) :
    ∀ p ∈ (regs.foldl (fun s r => add_thread s r.1 r.2) s).threads, FreshEntry p.2 := by
  induction regs generalizing s with
  | nil => exact h
  | cons r regs ih =>
    rw [List.foldl_cons]
    apply ih
    intro p hp
    rcases dictInsert_mem hp with h1 | h1
    · exact h p h1
    · rw [h1]
      exact ⟨rfl, rfl, rfl, rfl⟩

theorem mkState_fresh (regs : List (String × Option String)) :
    ∀ p ∈ (mkState regs).threads, FreshEntry p.2 :=
  foldl_add_fresh regs MTinit (by intro p hp; cases hp)

theorem foldl_add_key_mono (regs : List (String × Option String)) (s : MTState)
    {m : String} (h : m ∈ s.threads.map Prod.fst) :
    m ∈ (regs.foldl (fun s r => add_thread s r.1 r.2) s).threads.map Prod.fst := by
  induction regs generalizing s with
  | nil => exact h
  | cons r regs ih =>
    rw [List.foldl_cons]
    exact ih _ (dictInsert_key_mono _ _ h)

theorem foldl_add_len_lt (regs : List (String × Option String)) (s : MTState)
    (h : ¬ (regs.map Prod.fst).Nodup ∨ ∃ r ∈ regs, r.1 ∈ s.threads.map Prod.fst) :
    (regs.foldl (fun s r => add_thread s r.1 r.2) s).threads.length
      < s.threads.length + regs.length := by
  induction regs generalizing s with
  | nil =>
    rcases h with h | ⟨r, hr, _⟩
    · exact absurd List.Pairwise.nil h
    · cases hr
  | cons r regs ih =>
    rw [List.foldl_cons]
    by_cases hpres : s.threads.any (fun p => p.1 = r.1)
    · have hlen : (add_thread s r.1 r.2).threads.length = s.threads.length := by
        simp [add_thread, dictInsert_length, hpres]
      have hle := foldl_add_len_le regs (add_thread s r.1 r.2)
      rw [hlen] at hle
      simp only [List.length_cons]
      omega
    · have hlen : (add_thread s r.1 r.2).threads.length = s.threads.length + 1 := by
        simp [add_thread, dictInsert_length, hpres]
      have hnext : ¬ (regs.map Prod.fst).Nodup
          ∨ ∃ q ∈ regs, q.1 ∈ (add_thread s r.1 r.2).threads.map Prod.fst := by
        rcases h with h | ⟨q, hq, hqk⟩
        · rw [List.map_cons, List.nodup_cons] at h
          by_cases hmem : r.1 ∈ regs.map Prod.fst
          · right
            rcases List.mem_map.mp hmem with ⟨q, hql, hqn⟩
            refine ⟨q, hql, ?_⟩
            rw [hqn]
            exact dictInsert_key_mem _ _ _
          · left
            intro hc
            exact h ⟨hmem, hc⟩
        · rcases List.mem_cons.mp hq with h1 | h1
          · exfalso
            rcases List.mem_map.mp hqk with ⟨p, hpl, hpn⟩
            exact hpres (List.any_eq_true.mpr ⟨p, hpl, by simp [hpn, h1]⟩)
          · right
            exact ⟨q, h1, dictInsert_key_mono _ _ hqk⟩
      have := ih _ hnext
      rw [hlen] at this
      simp only [List.length_cons]
      omega

theorem mkState_len_lt (regs : List (String × Option String))
    (hdup : ¬ (regs.map Prod.fst).Nodup) :
    (mkState regs).threads.length < regs.length := by
  have := foldl_add_len_lt regs MTinit (Or.inl hdup)
  simpa [mkState, MTinit] using this

/-! ## The ancestor relation on a fixed skeleton -/


theorem bor_elim {a b : Bool} (h : (a || b) = true) : a = true ∨ b = true := by
  cases a
  · exact Or.inr (by simpa using h)
  · exact Or.inl rfl

theorem bor_inr {a b : Bool} (h : b = true) : (a || b) = true := by
  cases a <;> simp [h]

theorem parentOf_mem {sk : List (String × Option String)} {t d : String}
    (h : parentOf sk t = some d) : (t, some d) ∈ sk := by
  induction sk with
  | nil => simp [parentOf] at h
  | cons p l ih =>
    simp only [parentOf] at h
    by_cases hp : p.1 = t
    · rw [if_pos hp] at h
      have hpe : p = (t, some d) := by
        rw [← hp, ← h, Prod.mk.eta]
      exact List.mem_cons.mpr (Or.inl hpe.symm)
    · rw [if_neg hp] at h
      exact List.mem_cons_of_mem _ (ih h)

theorem parentOf_rank {sk : List (String × Option String)} {rk : String → Nat}
    (hrk : RankOK sk rk) {t d : String} (h : parentOf sk t = some d) :
    rk d < rk t ∧ d ∈ sk.map Prod.fst ∧ t ∈ sk.map Prod.fst := by
  have hm := parentOf_mem h
  have h1 := hrk.1 _ hm _ rfl
  refine ⟨h1.2, ?_, List.mem_map_of_mem Prod.fst hm⟩
  rcases h1.1 with ⟨q, hq, hqd⟩
  exact hqd ▸ List.mem_map_of_mem Prod.fst hq

theorem rank_lt_len {sk : List (String × Option String)} {rk : String → Nat}
    (hrk : RankOK sk rk) {t : String} (h : t ∈ sk.map Prod.fst) :
    rk t < sk.length := by
  rcases List.mem_map.mp h with ⟨p, hp, hpt⟩
  exact hpt ▸ hrk.2 p hp

theorem isDescFuel_stable {sk : List (String × Option String)} {rk : String → Nat}
    (hrk : RankOK sk rk) :
    ∀ f1 f2 t a, rk t ≤ f1 → rk t ≤ f2 → isDescFuel sk f1 t a = isDescFuel sk f2 t a := by
  intro f1
  induction f1 with
  | zero =>
    intro f2 t a h1 _
    have hp : parentOf sk t = none := by
      cases hpp : parentOf sk t with
      | none => rfl
      | some d =>
        have := (parentOf_rank hrk hpp).1
        omega
    cases f2 with
    | zero => rfl
    | succ f2 => simp [isDescFuel, hp]
  | succ f1 ih =>
    intro f2 t a h1 h2
    cases hpp : parentOf sk t with
    | none =>
      cases f2 with
      | zero => simp [isDescFuel, hpp]
      | succ f2 => simp [isDescFuel, hpp]
    | some d =>
      have hd := (parentOf_rank hrk hpp).1
      cases f2 with
      | zero => omega
      | succ f2 =>
        simp only [isDescFuel, hpp]
        rw [ih f2 d a (by omega) (by omega)]

theorem isDesc_none {sk : List (String × Option String)} {t : String}
    (h : parentOf sk t = none) (a : String) : isDesc sk t a = false := by
  unfold isDesc
  cases sk.length with
  | zero => rfl
  | succ m => simp [isDescFuel, h]

theorem isDesc_parent {sk : List (String × Option String)} {rk : String → Nat}
    (hrk : RankOK sk rk) {t d : String}
    (h : parentOf sk t = some d) (a : String) :
    isDesc sk t a = ((d = a) || isDesc sk d a) := by
  have hr := parentOf_rank hrk h
  have hlt : rk t < sk.length := rank_lt_len hrk hr.2.2
  unfold isDesc
  cases hl : sk.length with
  | zero => omega
  | succ m =>
    rw [hl] at hlt
    simp only [isDescFuel, h]
    congr 1
    exact isDescFuel_stable hrk m (m + 1) d a (by omega) (by omega)

theorem isDesc_rank_aux {sk : List (String × Option String)} {rk : String → Nat}
    (hrk : RankOK sk rk) :
    ∀ N t a, rk t ≤ N → isDesc sk t a = true → rk a < rk t := by
  intro N
  induction N with
  | zero =>
    intro t a h0 hd
    cases hpp : parentOf sk t with
    | none => rw [isDesc_none hpp] at hd; cases hd
    | some d =>
      have := (parentOf_rank hrk hpp).1
      omega
  | succ N ih =>
    intro t a hN hd
    cases hpp : parentOf sk t with
    | none => rw [isDesc_none hpp] at hd; cases hd
    | some d =>
      rw [isDesc_parent hrk hpp] at hd
      have hdr := (parentOf_rank hrk hpp).1
      rcases bor_elim hd with h1 | h1
      · have hda : d = a := of_decide_eq_true h1
        subst hda
        omega
      · have := ih d a (by omega) h1
        omega

theorem isDesc_rank {sk : List (String × Option String)} {rk : String → Nat}
    (hrk : RankOK sk rk) {t a : String} (hd : isDesc sk t a = true) :
    rk a < rk t :=
  isDesc_rank_aux hrk (rk t) t a (le_refl _) hd

theorem isDesc_irrefl {sk : List (String × Option String)} {rk : String → Nat}
    (hrk : RankOK sk rk) (t : String) : isDesc sk t t = false := by
  cases hd : isDesc sk t t
  · rfl
  · have := isDesc_rank hrk hd
    omega

theorem isDesc_trans_aux {sk : List (String × Option String)} {rk : String → Nat}
    (hrk : RankOK sk rk) :
    ∀ N t b a, rk t ≤ N → isDesc sk t b = true → isDesc sk b a = true →
      isDesc sk t a = true := by
  intro N
  induction N with
  | zero =>
    intro t b a h0 h1 _
    cases hpp : parentOf sk t with
    | none => rw [isDesc_none hpp] at h1; cases h1
    | some d =>
      have := (parentOf_rank hrk hpp).1
      omega
  | succ N ih =>
    intro t b a hN h1 h2
    cases hpp : parentOf sk t with
    | none => rw [isDesc_none hpp] at h1; cases h1
    | some d =>
      have hdr := (parentOf_rank hrk hpp).1
      rw [isDesc_parent hrk hpp] at h1 ⊢
      rcases bor_elim h1 with hh | hh
      · have hdb : d = b := of_decide_eq_true hh
        subst hdb
        exact bor_inr (h2)
      · exact bor_inr ((ih d b a (by omega) hh h2))

theorem isDesc_trans {sk : List (String × Option String)} {rk : String → Nat}
    (hrk : RankOK sk rk) {t b a : String}
    (h1 : isDesc sk t b = true) (h2 : isDesc sk b a = true) :
    isDesc sk t a = true :=
  isDesc_trans_aux hrk (rk t) t b a (le_refl _) h1 h2

theorem isDesc_of_parent {sk : List (String × Option String)} {rk : String → Nat}
    (hrk : RankOK sk rk) {c n : String} (h : parentOf sk c = some n) :
    isDesc sk c n = true := by
  rw [isDesc_parent hrk h]
  simp

theorem isDesc_linear_aux {sk : List (String × Option String)} {rk : String → Nat}
    (hrk : RankOK sk rk) :
    ∀ N t a b, rk t ≤ N → isDesc sk t a = true → isDesc sk t b = true →
      a = b ∨ isDesc sk a b = true ∨ isDesc sk b a = true := by
  intro N
  induction N with
  | zero =>
    intro t a b h0 h1 _
    cases hpp : parentOf sk t with
    | none => rw [isDesc_none hpp] at h1; cases h1
    | some d =>
      have := (parentOf_rank hrk hpp).1
      omega
  | succ N ih =>
    intro t a b hN h1 h2
    cases hpp : parentOf sk t with
    | none => rw [isDesc_none hpp] at h1; cases h1
    | some d =>
      have hdr := (parentOf_rank hrk hpp).1
      rw [isDesc_parent hrk hpp] at h1 h2
      rcases bor_elim h1 with ha | ha <;>
        rcases bor_elim h2 with hb | hb
      · exact Or.inl ((of_decide_eq_true ha).symm.trans (of_decide_eq_true hb))
      · exact Or.inr (Or.inl ((of_decide_eq_true ha) ▸ hb))
      · exact Or.inr (Or.inr ((of_decide_eq_true hb) ▸ ha))
      · exact ih d a b (by omega) ha hb

theorem isDesc_linear {sk : List (String × Option String)} {rk : String → Nat}
    (hrk : RankOK sk rk) {t a b : String}
    (h1 : isDesc sk t a = true) (h2 : isDesc sk t b = true) :
    a = b ∨ isDesc sk a b = true ∨ isDesc sk b a = true :=
  isDesc_linear_aux hrk (rk t) t a b (le_refl _) h1 h2

theorem sibling_not_desc {sk : List (String × Option String)} {rk : String → Nat}
    (hrk : RankOK sk rk) {n x y : String}
    (hx : parentOf sk x = some n) (hy : parentOf sk y = some n) :
    isDesc sk x y = false := by
  have hyr := (parentOf_rank hrk hy).1
  rw [isDesc_parent hrk hx]
  by_cases hq : n = y
  · subst hq
    omega
  · simp only [hq, decide_False, Bool.false_or]
    cases hd : isDesc sk n y
    · rfl
    · have := isDesc_rank hrk hd
      omega

theorem sibling_disjoint {sk : List (String × Option String)} {rk : String → Nat}
    (hrk : RankOK sk rk) {n c c' : String}
    (hc : parentOf sk c = some n) (hc' : parentOf sk c' = some n) (hne : c ≠ c') :
    ∀ t, (t = c ∨ isDesc sk t c = true) → (t = c' ∨ isDesc sk t c' = true) → False := by
  intro t h1 h2
  rcases h1 with rfl | h1 <;> rcases h2 with rfl | h2
  · exact hne rfl
  · rw [sibling_not_desc hrk hc hc'] at h2
    cases h2
  · rw [sibling_not_desc hrk hc' hc] at h1
    cases h1
  · rcases isDesc_linear hrk h1 h2 with h | h | h
    · exact hne h
    · rw [sibling_not_desc hrk hc hc'] at h
      cases h
    · rw [sibling_not_desc hrk hc' hc] at h
      cases h

theorem isDesc_iff_child_aux {sk : List (String × Option String)} {rk : String → Nat}
    (hrk : RankOK sk rk) :
    ∀ N t n, rk t ≤ N →
      (isDesc sk t n = true ↔
        ∃ c, parentOf sk c = some n ∧ (t = c ∨ isDesc sk t c = true)) := by
  intro N
  induction N with
  | zero =>
    intro t n h0
    constructor
    · intro hd
      cases hpp : parentOf sk t with
      | none => rw [isDesc_none hpp] at hd; cases hd
      | some d =>
        have := (parentOf_rank hrk hpp).1
        omega
    · rintro ⟨c, hc, rfl | hdc⟩
      · exact isDesc_of_parent hrk hc
      · cases hpp : parentOf sk t with
        | none => rw [isDesc_none hpp] at hdc; cases hdc
        | some d =>
          have := (parentOf_rank hrk hpp).1
          omega
  | succ N ih =>
    intro t n hN
    constructor
    · intro hd
      cases hpp : parentOf sk t with
      | none => rw [isDesc_none hpp] at hd; cases hd
      | some d =>
        have hdr := (parentOf_rank hrk hpp).1
        rw [isDesc_parent hrk hpp] at hd
        rcases bor_elim hd with hh | hh
        · have hdn : d = n := of_decide_eq_true hh
          subst hdn
          exact ⟨t, hpp, Or.inl rfl⟩
        · rcases (ih d n (by omega)).mp hh with ⟨c, hc, hdc⟩
          refine ⟨c, hc, Or.inr ?_⟩
          rw [isDesc_parent hrk hpp]
          rcases hdc with rfl | hdc
          · simp
          · exact bor_inr (hdc)
    · rintro ⟨c, hc, rfl | hdc⟩
      · exact isDesc_of_parent hrk hc
      · exact isDesc_trans hrk hdc (isDesc_of_parent hrk hc)

theorem isDesc_iff_child {sk : List (String × Option String)} {rk : String → Nat}
    (hrk : RankOK sk rk) (t n : String) :
    isDesc sk t n = true ↔
      ∃ c, parentOf sk c = some n ∧ (t = c ∨ isDesc sk t c = true) :=
  isDesc_iff_child_aux hrk (rk t) t n (le_refl _)

/-! ## Dependents and counting helpers -/

theorem mem_dependentsOf {s : MTState} {n c : String} :
    c ∈ dependentsOf s n ↔ ∃ e, (c, e) ∈ s.threads ∧ e.depends = some n := by
  unfold dependentsOf
  constructor
  · intro h
    rcases List.mem_map.mp h with ⟨p, hp, hpc⟩
    rw [List.mem_filter] at hp
    refine ⟨p.2, ?_, of_decide_eq_true hp.2⟩
    rw [← hpc, Prod.mk.eta]
    exact hp.1
  · rintro ⟨e, he, hdep⟩
    apply List.mem_map.mpr
    refine ⟨(c, e), ?_, rfl⟩
    rw [List.mem_filter]
    exact ⟨he, decide_eq_true hdep⟩

theorem mem_dependentsOf_parentOf {s : MTState} {n c : String}
    (hnd : (s.threads.map Prod.fst).Nodup) :
    c ∈ dependentsOf s n ↔ parentOf (skel s) c = some n := by
  rw [mem_dependentsOf, parentOf_skel]
  constructor
  · rintro ⟨e, he, hdep⟩
    rw [mem_alookup hnd he]
    exact hdep
  · intro h
    cases hl : alookup s.threads c with
    | none => rw [hl] at h; cases h
    | some e =>
      rw [hl] at h
      exact ⟨e, alookup_mem hl, h⟩

theorem dependentsOf_nodup {s : MTState} (n : String)
    (hnd : (s.threads.map Prod.fst).Nodup) : (dependentsOf s n).Nodup := by
  unfold dependentsOf
  exact List.Nodup.sublist (List.Sublist.map Prod.fst (List.filter_sublist _)) hnd

theorem countP_strict_sub {α : Type} (l : List α) (p q : α → Bool)
    (himp : ∀ a ∈ l, p a = true → q a = true)
    {x : α} (hx : x ∈ l) (hqx : q x = true) (hpx : p x = false) :
    l.countP p < l.countP q := by
  induction l with
  | nil => cases hx
  | cons a l ih =>
    rw [List.countP_cons, List.countP_cons]
    have hmono : l.countP p ≤ l.countP q :=
      List.countP_mono_left (fun a ha h => himp a (List.mem_cons_of_mem _ ha) h)
    rcases List.mem_cons.mp hx with rfl | hx2
    · rw [hqx, hpx]
      simp only [Bool.false_eq_true, if_false, eq_self_iff_true, if_true]
      omega
    · have hlt := ih (fun a ha h => himp a (List.mem_cons_of_mem _ ha) h) hx2
      have h2 : (if p a = true then 1 else 0) ≤ (if q a = true then 1 else 0) := by
        by_cases hpa : p a = true
        · rw [if_pos hpa, if_pos (himp a (List.mem_cons_self _ _) hpa)]
        · rw [if_neg hpa]
          split <;> omega
      omega

/-- The length of the over-rank filter drops strictly from a task to its child. -/
theorem rank_filter_lt {sk : List (String × Option String)} {rk : String → Nat}
    (hrk : RankOK sk rk) {n c : String} (hc : parentOf sk c = some n) :
    (sk.filter (fun p => rk c < rk p.1)).length
      < (sk.filter (fun p => rk n < rk p.1)).length := by
  have hr := parentOf_rank hrk hc
  rcases List.mem_map.mp hr.2.2 with ⟨pc, hpc, hpcc⟩
  rw [← List.countP_eq_length_filter, ← List.countP_eq_length_filter]
  apply countP_strict_sub sk _ _ ?_ hpc
  · rw [hpcc]
    exact decide_eq_true hr.1
  · rw [hpcc]
    simp
  · intro a _ h
    have h1 : rk c < rk a.1 := of_decide_eq_true h
    have h2 : rk n < rk c := hr.1
    exact decide_eq_true (by omega)

theorem skel_map_cond (l : List (String × TaskEntry))
    (cond : String × TaskEntry → Bool) (f : TaskEntry → TaskEntry)
    (hf : ∀ e, (f e).depends = e.depends) :
    (l.map (fun p => if cond p then (p.1, f p.2) else p)).map
        (fun p => (p.1, p.2.depends))
      = l.map (fun p => (p.1, p.2.depends)) := by
  rw [List.map_map]
  apply List.map_congr_left
  intro p _
  by_cases h : cond p <;> simp [Function.comp, h, hf]

theorem keys_map_cond (l : List (String × TaskEntry))
    (cond : String × TaskEntry → Bool) (f : TaskEntry → TaskEntry) :
    (l.map (fun p => if cond p then (p.1, f p.2) else p)).map Prod.fst
      = l.map Prod.fst := by
  rw [List.map_map]
  apply List.map_congr_left
  intro p _
  by_cases h : cond p <;> simp [Function.comp, h]

/-! ## Cascade effect lemmas -/

theorem alookup_map_keycond (l : List (String × TaskEntry)) (cond : String → Bool)
    (f : TaskEntry → TaskEntry) (m : String) :
    alookup (l.map (fun p => if cond p.1 then (p.1, f p.2) else p)) m
      = if cond m then (alookup l m).map f else alookup l m := by
  induction l with
  | nil => cases h : cond m <;> simp [alookup, h]
  | cons p l ih =>
    by_cases hpm : p.1 = m
    · subst hpm
      cases h : cond p.1 <;> simp [alookup, h, ih]
    · cases h : cond p.1 <;> cases h2 : cond m <;>
        simp [alookup, h, h2, hpm, ih]

theorem isDesc_key_mem {sk : List (String × Option String)} {rk : String → Nat}
    (hrk : RankOK sk rk) {t a : String} (hd : isDesc sk t a = true) :
    t ∈ sk.map Prod.fst := by
  cases hpp : parentOf sk t with
  | none => rw [isDesc_none hpp] at hd; cases hd
  | some d => exact (parentOf_rank hrk hpp).2.2

theorem cascadeOut_refl (s : MTState) (cond : String → Bool)
    (h : ∀ k, cond k = false) : CascadeOut s s cond := by
  refine ⟨?_, rfl, rfl, rfl, rfl⟩
  have : ∀ p ∈ s.threads,
      (if cond p.1 then (p.1, { p.2 with status := 3 }) else p) = p := by
    intro p _
    rw [h p.1]
    simp
  rw [List.map_congr_left this, List.map_id']

theorem cascadeOut_skel {s r : MTState} {cond : String → Bool}
    (h : CascadeOut s r cond) : skel r = skel s := by
  have := h.1
  unfold skel
  rw [this]
  exact skel_map_cond s.threads (fun p => cond p.1) (fun e => { e with status := 3 }) (fun _ => rfl)

theorem cascadeOut_keys {s r : MTState} {cond : String → Bool}
    (h : CascadeOut s r cond) : r.threads.map Prod.fst = s.threads.map Prod.fst := by
  rw [h.1]
  exact keys_map_cond s.threads (fun p => cond p.1) (fun e => { e with status := 3 })

theorem cascadeOut_alookup {s r : MTState} {cond : String → Bool}
    (h : CascadeOut s r cond) (m : String) :
    alookup r.threads m
      = if cond m then (alookup s.threads m).map (fun e => { e with status := 3 })
        else alookup s.threads m := by
  rw [h.1]
  exact alookup_map_keycond s.threads cond (fun e => { e with status := 3 }) m

theorem cascadeOut_comp {s1 s2 s3 : MTState} {c1 c2 : String → Bool}
    (h12 : CascadeOut s1 s2 c1) (h23 : CascadeOut s2 s3 c2) :
    CascadeOut s1 s3 (fun k => c1 k || c2 k) := by
  obtain ⟨ht12, hd12, hn12, ha12, hal12⟩ := h12
  obtain ⟨ht23, hd23, hn23, ha23, hal23⟩ := h23
  refine ⟨?_, ?_, hn23.trans hn12, ha23.trans ha12, hal23.trans hal12⟩
  · rw [ht23, ht12, List.map_map]
    apply List.map_congr_left
    intro p _
    by_cases h1 : c1 p.1 <;> by_cases h2 : c2 p.1 <;>
      simp [Function.comp, h1, h2]
  · omega

theorem cascadeOut_congr {s r : MTState} {c1 c2 : String → Bool}
    (h : CascadeOut s r c1) (hc : ∀ k, c1 k = c2 k) : CascadeOut s r c2 := by
  have hfun : c1 = c2 := funext hc
  rw [← hfun]
  exact h

theorem cascadeOut_mark {s : MTState} {c : String} {ec : TaskEntry}
    (hnd : (s.threads.map Prod.fst).Nodup)
    (he : alookup s.threads c = some ec) (hst : ec.status = -1) :
    CascadeOut s (incDone (setStatus s c 3)) (fun k => k = c) := by
  refine ⟨?_, ?_, rfl, rfl, rfl⟩
  · show (setStatus s c 3).threads = _
    unfold setStatus updThread
    apply List.map_congr_left
    intro p _
    by_cases h : p.1 = c <;> simp [h]
  · show s.done_threads + 1 + skippedCount s
        = s.done_threads + skippedCount (incDone (setStatus s c 3))
    have hcount := countP_updThread (fun p => decide (p.2.status = 3))
      (fun e => { e with status := 3 }) hnd he
    simp only [hst] at hcount
    norm_num at hcount
    show s.done_threads + 1 + skippedCount s
        = s.done_threads + skippedCount (setStatus s c 3)
    unfold skippedCount
    unfold setStatus
    omega

theorem keycond_fst (p0 : String × TaskEntry) (cond : String → Bool)
    (f : TaskEntry → TaskEntry) :
    (if cond p0.1 then (p0.1, f p0.2) else p0).1 = p0.1 := by
  by_cases h : cond p0.1 <;> simp [h]

/-- Inner fold of `abort_dependents`: processing a duplicate-free list of
children of `n` sequentially marks exactly the closures of those children. -/
theorem cascade_fold {sk : List (String × Option String)} {rk : String → Nat}
    (hrk : RankOK sk rk) (fuel : Nat) (n : String)
    (IH : ∀ m s, skel s = sk → (s.threads.map Prod.fst).Nodup →
      (sk.filter (fun p => rk m < rk p.1)).length ≤ fuel →
      (∀ p ∈ s.threads, isDesc sk p.1 m = true → p.2.status = -1) →
      CascadeOut s (abort_dependents fuel m s) (fun k => isDesc sk k m)) :
    ∀ (l : List String) (s : MTState), skel s = sk →
      (s.threads.map Prod.fst).Nodup →
      (∀ c ∈ l, parentOf sk c = some n) → l.Nodup →
      (∀ c ∈ l, (sk.filter (fun p => rk c < rk p.1)).length ≤ fuel) →
      (∀ p ∈ s.threads, (∃ c ∈ l, p.1 = c ∨ isDesc sk p.1 c = true) →
        p.2.status = -1) →
      CascadeOut s
        (l.foldl (fun acc m => abort_dependents fuel m (incDone (setStatus acc m 3))) s)
        (fun k => l.any (fun c => (k = c) || isDesc sk k c)) := by
  intro l
  induction l with
  | nil =>
    intro s _ _ _ _ _ _
    exact cascadeOut_refl s _ (fun _ => rfl)
  | cons c l ihl =>
    intro s hsk hnd hch hlnd hbd hpre
    rw [List.foldl_cons]
    have hc : parentOf sk c = some n := hch c (List.mem_cons_self _ _)
    have hckey : c ∈ s.threads.map Prod.fst := by
      have h1 : c ∈ sk.map Prod.fst := (parentOf_rank hrk hc).2.2
      rw [keys_eq_skel, hsk]
      exact h1
    rcases alookup_isSome_of_key_mem hckey with ⟨ec, hec⟩
    have hecst : ec.status = -1 := by
      apply hpre (c, ec) (alookup_mem hec)
      exact ⟨c, List.mem_cons_self _ _, Or.inl rfl⟩
    have h1 : CascadeOut s (incDone (setStatus s c 3)) (fun k => k = c) :=
      cascadeOut_mark hnd hec hecst
    have hsk1 : skel (incDone (setStatus s c 3)) = sk := (cascadeOut_skel h1).trans hsk
    have hnd1 : ((incDone (setStatus s c 3)).threads.map Prod.fst).Nodup := by
      rw [cascadeOut_keys h1]
      exact hnd
    have hpre1 : ∀ p ∈ (incDone (setStatus s c 3)).threads,
        isDesc sk p.1 c = true → p.2.status = -1 := by
      intro p hp hdp
      rw [h1.1] at hp
      rcases List.mem_map.mp hp with ⟨p0, hp0, hpeq⟩
      have hpk : p.1 = p0.1 := by
        rw [← hpeq]
        exact keycond_fst p0 (fun k => decide (k = c)) (fun e => { e with status := 3 })
      by_cases hp0c : p0.1 = c
      · exfalso
        rw [hpk, hp0c, isDesc_irrefl hrk c] at hdp
        cases hdp
      · have hpeq2 : p = p0 := by
          rw [← hpeq]
          simp [hp0c]
        rw [hpeq2]
        exact hpre p0 hp0 ⟨c, List.mem_cons_self _ _, Or.inr (hpk ▸ hdp)⟩
    have h2 : CascadeOut (incDone (setStatus s c 3))
        (abort_dependents fuel c (incDone (setStatus s c 3)))
        (fun k => isDesc sk k c) :=
      IH c _ hsk1 hnd1 (hbd c (List.mem_cons_self _ _)) hpre1
    have h12 := cascadeOut_comp h1 h2
    have hsk2 : skel (abort_dependents fuel c (incDone (setStatus s c 3))) = sk :=
      (cascadeOut_skel h2).trans hsk1
    have hnd2 : ((abort_dependents fuel c (incDone (setStatus s c 3))).threads.map
        Prod.fst).Nodup := by
      rw [cascadeOut_keys h2]
      exact hnd1
    have hpre2 : ∀ p ∈ (abort_dependents fuel c (incDone (setStatus s c 3))).threads,
        (∃ c' ∈ l, p.1 = c' ∨ isDesc sk p.1 c' = true) → p.2.status = -1 := by
      rintro p hp ⟨c', hc'l, hor⟩
      have hcc' : c ≠ c' := by
        intro hcc
        rw [List.nodup_cons] at hlnd
        exact hlnd.1 (hcc ▸ hc'l)
      rw [h12.1] at hp
      rcases List.mem_map.mp hp with ⟨p0, hp0, hpeq⟩
      have hpk : p.1 = p0.1 := by
        rw [← hpeq]
        exact keycond_fst p0 (fun k => decide (k = c) || isDesc sk k c)
          (fun e => { e with status := 3 })
      have hnotc : ¬ (p0.1 = c ∨ isDesc sk p0.1 c = true) := by
        intro hin
        exact sibling_disjoint hrk hc (hch c' (List.mem_cons_of_mem _ hc'l)) hcc'
          p0.1 hin (hpk ▸ hor)
      have hno1 : p0.1 ≠ c := fun h => hnotc (Or.inl h)
      have hno2 : isDesc sk p0.1 c = false := by
        cases hdd : isDesc sk p0.1 c
        · rfl
        · exact absurd (Or.inr hdd) hnotc
      have hpeq2 : p = p0 := by
        rw [← hpeq]
        simp [hno1, hno2]
      rw [hpeq2]
      exact hpre p0 hp0 ⟨c', List.mem_cons_of_mem _ hc'l, hpk ▸ hor⟩
    have h3 := ihl (abort_dependents fuel c (incDone (setStatus s c 3))) hsk2 hnd2
      (fun c' h => hch c' (List.mem_cons_of_mem _ h))
      (List.nodup_cons.mp hlnd).2
      (fun c' h => hbd c' (List.mem_cons_of_mem _ h)) hpre2
    have hall := cascadeOut_comp h12 h3
    apply cascadeOut_congr hall
    intro k
    rw [List.any_cons]

/-- Main cascade specification: on an acyclic skeleton, when every strict
descendant of `n` is still pending, `abort_dependents` (with fuel at least
the number of higher-rank tasks) marks exactly the strict descendants of `n`
as skipped, counts each toward `done_threads`, and changes nothing else. -/
theorem abort_dependents_spec {sk : List (String × Option String)} {rk : String → Nat}
    (hrk : RankOK sk rk) :
    ∀ fuel n s, skel s = sk → (s.threads.map Prod.fst).Nodup →
      (sk.filter (fun p => rk n < rk p.1)).length ≤ fuel →
      (∀ p ∈ s.threads, isDesc sk p.1 n = true → p.2.status = -1) →
      CascadeOut s (abort_dependents fuel n s) (fun k => isDesc sk k n) := by
  intro fuel
  induction fuel with
  | zero =>
    intro n s hsk hnd hb hpre
    have hnone : ∀ k, isDesc sk k n = false := by
      intro k
      cases hd : isDesc sk k n
      · rfl
      · exfalso
        have hkm := isDesc_key_mem hrk hd
        have hrkn := isDesc_rank hrk hd
        rcases List.mem_map.mp hkm with ⟨pk, hpk, hpkk⟩
        have hmemf : pk ∈ sk.filter (fun p => rk n < rk p.1) := by
          rw [List.mem_filter]
          exact ⟨hpk, decide_eq_true (hpkk ▸ hrkn)⟩
        have := List.length_pos_of_mem hmemf
        omega
    exact cascadeOut_refl s _ hnone
  | succ fuel ih =>
    intro n s hsk hnd hb hpre
    show CascadeOut s
      ((dependentsOf s n).foldl
        (fun acc m => abort_dependents fuel m (incDone (setStatus acc m 3))) s) _
    have hch : ∀ c ∈ dependentsOf s n, parentOf sk c = some n := by
      intro c hcmem
      have h := (mem_dependentsOf_parentOf hnd).mp hcmem
      rw [hsk] at h
      exact h
    have hbd : ∀ c ∈ dependentsOf s n,
        (sk.filter (fun p => rk c < rk p.1)).length ≤ fuel := by
      intro c hcmem
      have := rank_filter_lt hrk (hch c hcmem)
      omega
    have hpre2 : ∀ p ∈ s.threads,
        (∃ c ∈ dependentsOf s n, p.1 = c ∨ isDesc sk p.1 c = true) →
        p.2.status = -1 := by
      rintro p hp ⟨c, hcmem, hor⟩
      apply hpre p hp
      have hcparent := hch c hcmem
      rcases hor with heq | hdesc
      · rw [heq]
        exact isDesc_of_parent hrk hcparent
      · exact isDesc_trans hrk hdesc (isDesc_of_parent hrk hcparent)
    have hfold := cascade_fold hrk fuel n ih (dependentsOf s n) s hsk hnd hch
      (dependentsOf_nodup n hnd) hbd hpre2
    apply cascadeOut_congr hfold
    intro k
    cases hd : isDesc sk k n
    · cases hany : (dependentsOf s n).any (fun c => (decide (k = c)) || isDesc sk k c)
      · rfl
      · exfalso
        rcases List.any_eq_true.mp hany with ⟨c, hcmem, hcond⟩
        have hcparent := hch c hcmem
        rcases bor_elim hcond with hcase | hcase
        · have hkc : k = c := of_decide_eq_true hcase
          subst hkc
          rw [isDesc_of_parent hrk hcparent] at hd
          cases hd
        · rw [isDesc_trans hrk hcase (isDesc_of_parent hrk hcparent)] at hd
          cases hd
    · rcases (isDesc_iff_child hrk k n).mp hd with ⟨c, hcp, hor⟩
      have hcmem : c ∈ dependentsOf s n := by
        rw [mem_dependentsOf_parentOf hnd, hsk]
        exact hcp
      apply List.any_eq_true.mpr
      refine ⟨c, hcmem, ?_⟩
      rcases hor with rfl | hdc
      · simp
      · exact bor_inr hdc

/-! ## Counting corollaries of the cascade -/

theorem countP_map_cond_or (l : List (String × TaskEntry)) (cond : String → Bool)
    (hpre : ∀ p ∈ l, cond p.1 = true → p.2.status = -1) :
    (l.map (fun p => if cond p.1 then (p.1, { p.2 with status := 3 }) else p)).countP
        (fun p => decide (p.2.status = 3))
      = l.countP (fun p => cond p.1) + l.countP (fun p => decide (p.2.status = 3)) := by
  induction l with
  | nil => rfl
  | cons p l ih =>
    rw [List.map_cons, List.countP_cons, List.countP_cons, List.countP_cons,
      ih (fun q hq h => hpre q (List.mem_cons_of_mem _ hq) h)]
    by_cases hc : cond p.1 = true
    · have hst := hpre p (List.mem_cons_self _ _) hc
      simp only [hc, if_true, hst]
      norm_num
      omega
    · simp only [hc, Bool.false_eq_true, if_false]
      omega

theorem cascadeOut_count {s r : MTState} {cond : String → Bool}
    (h : CascadeOut s r cond)
    (hpre : ∀ p ∈ s.threads, cond p.1 = true → p.2.status = -1) :
    r.done_threads
      = s.done_threads + ((s.threads.countP (fun p => cond p.1)) : Int) := by
  have h2 := h.2.1
  unfold skippedCount at h2
  rw [h.1, countP_map_cond_or s.threads cond hpre] at h2
  push_cast at h2 ⊢
  omega

/-- A predicate that only looks at the key is unaffected by key-preserving
entry updates. -/
theorem countP_keyonly (l : List (String × TaskEntry))
    (g : String × TaskEntry → String × TaskEntry)
    (hg : ∀ p ∈ l, (g p).1 = p.1) (q : String → Bool) :
    (l.map g).countP (fun p => q p.1) = l.countP (fun p => q p.1) := by
  rw [List.countP_map]
  apply List.countP_congr
  intro p hp
  simp [Function.comp, hg p hp]

/-! ## Characterization of `thread_success` / `finishSuccess` -/

theorem foldl_start_misc (l : List String) (s : MTState) :
    (l.foldl (fun acc c => startThread acc c) s).done_threads = s.done_threads
    ∧ (l.foldl (fun acc c => startThread acc c) s).num_threads = s.num_threads
    ∧ (l.foldl (fun acc c => startThread acc c) s).abort = s.abort
    ∧ (l.foldl (fun acc c => startThread acc c) s).all_done = s.all_done
    ∧ skel (l.foldl (fun acc c => startThread acc c) s) = skel s := by
  induction l generalizing s with
  | nil => exact ⟨rfl, rfl, rfl, rfl, rfl⟩
  | cons c l ih =>
    rw [List.foldl_cons]
    rcases ih (startThread s c) with ⟨h1, h2, h3, h4, h5⟩
    exact ⟨h1, h2, h3, h4, h5.trans (skel_startThread s c)⟩

theorem alookup_startThread_self (s : MTState) (n : String) :
    alookup (startThread s n).threads n
      = (alookup s.threads n).map (fun e => { e with started := true }) :=
  alookup_updThread_self s n _

theorem alookup_startThread_other (s : MTState) (n m : String) (h : m ≠ n) :
    alookup (startThread s n).threads m = alookup s.threads m :=
  alookup_updThread_other s n _ m h

theorem foldl_start_alookup (l : List String) (s : MTState) (m : String) :
    alookup (l.foldl (fun acc c => startThread acc c) s).threads m
      = if m ∈ l then (alookup s.threads m).map (fun e => { e with started := true })
        else alookup s.threads m := by
  induction l generalizing s with
  | nil => simp
  | cons c l ih =>
    rw [List.foldl_cons, ih (startThread s c)]
    by_cases hml : m ∈ l <;> by_cases hmc : m = c
    · subst hmc
      rw [if_pos hml, if_pos (List.mem_cons_self _ _), alookup_startThread_self,
        Option.map_map]
      cases alookup s.threads m <;> simp
    · rw [if_pos hml, if_pos (List.mem_cons_of_mem _ hml),
        alookup_startThread_other s c m hmc]
    · subst hmc
      rw [if_neg hml, if_pos (List.mem_cons_self _ _), alookup_startThread_self]
    · rw [if_neg hml, if_neg (by simp [hmc, hml]), alookup_startThread_other s c m hmc]

/-- Everything `MultiThread.thread_success(n)` does, stated pointwise: the
done-counter increments, every stored dependent of `n` is started, the
`all_done` event is set exactly when the incremented counter equals
`num_threads`, and nothing else changes. -/
theorem thread_success_spec (s : MTState) (n : String) :
    (∀ m, alookup (thread_success s n).threads m
        = if m ∈ dependentsOf s n
          then (alookup s.threads m).map (fun e => { e with started := true })
          else alookup s.threads m)
    ∧ (thread_success s n).done_threads = s.done_threads + 1
    ∧ (thread_success s n).num_threads = s.num_threads
    ∧ (thread_success s n).abort = s.abort
    ∧ ((thread_success s n).all_done
        = if s.done_threads + 1 = (s.num_threads : Int) then true else s.all_done)
    ∧ skel (thread_success s n) = skel s := by
  have hdep : dependentsOf (incDone s) n = dependentsOf s n := rfl
  unfold thread_success
  rcases foldl_start_misc (dependentsOf (incDone s) n) (incDone s) with
    ⟨h1, h2, h3, h4, h5⟩
  by_cases hif : ((dependentsOf (incDone s) n).foldl
      (fun acc c => startThread acc c) (incDone s)).done_threads
      = (((dependentsOf (incDone s) n).foldl
        (fun acc c => startThread acc c) (incDone s)).num_threads : Int)
  · rw [if_pos hif]
    refine ⟨?_, h1, h2, h3, ?_, h5⟩
    · intro m
      rw [show ({ ((dependentsOf (incDone s) n).foldl
          (fun acc c => startThread acc c) (incDone s)) with all_done := true
          : MTState }).threads
          = ((dependentsOf (incDone s) n).foldl
            (fun acc c => startThread acc c) (incDone s)).threads from rfl,
        foldl_start_alookup, hdep]
      rfl
    · rw [h1, h2] at hif
      have hif2 : s.done_threads + 1 = (s.num_threads : Int) := hif
      rw [if_pos hif2]
  · rw [if_neg hif]
    refine ⟨?_, h1, h2, h3, ?_, h5⟩
    · intro m
      rw [foldl_start_alookup, hdep]
      rfl
    · rw [h1, h2] at hif
      have hif2 : ¬ s.done_threads + 1 = (s.num_threads : Int) := hif
      rw [if_neg hif2]
      exact h4

theorem dependentsOf_mapSkel (l : List (String × TaskEntry)) (n : String) :
    (l.filter (fun p => p.2.depends = some n)).map Prod.fst
      = ((l.map (fun p => (p.1, p.2.depends))).filter
          (fun p => p.2 = some n)).map Prod.fst := by
  induction l with
  | nil => rfl
  | cons p l ih =>
    by_cases h : p.2.depends = some n <;>
      simp [List.filter_cons, h, ih]

theorem dependentsOf_eq_skel (s : MTState) (n : String) :
    dependentsOf s n
      = ((skel s).filter (fun p => p.2 = some n)).map Prod.fst :=
  dependentsOf_mapSkel s.threads n

theorem dependentsOf_skel_congr {s1 s2 : MTState} (h : skel s1 = skel s2) (n : String) :
    dependentsOf s1 n = dependentsOf s2 n := by
  rw [dependentsOf_eq_skel, dependentsOf_eq_skel, h]

theorem countP_keyonly_of_keys_eq {l1 l2 : List (String × TaskEntry)}
    (h : l1.map Prod.fst = l2.map Prod.fst) (q : String → Bool) :
    l1.countP (fun p => q p.1) = l2.countP (fun p => q p.1) := by
  induction l1 generalizing l2 with
  | nil =>
    cases l2 with
    | nil => rfl
    | cons p l2 => cases h
  | cons p l1 ih =>
    cases l2 with
    | nil => cases h
    | cons p2 l2 =>
      rw [List.map_cons, List.map_cons] at h
      injection h with h1 h2
      rw [List.countP_cons, List.countP_cons, ih h2, h1]

/-- Everything `DemoGridThread.run`'s success path does, stated pointwise. -/
theorem finishSuccess_spec (s : MTState) (n : String) :
    (∀ m, alookup (finishSuccess s n).threads m
        = if m ∈ dependentsOf s n
          then (alookup (setStatus s n 0).threads m).map
            (fun e => { e with started := true })
          else alookup (setStatus s n 0).threads m)
    ∧ (finishSuccess s n).done_threads = s.done_threads + 1
    ∧ (finishSuccess s n).num_threads = s.num_threads
    ∧ (finishSuccess s n).abort = s.abort
    ∧ ((finishSuccess s n).all_done
        = if s.done_threads + 1 = (s.num_threads : Int) then true else s.all_done)
    ∧ skel (finishSuccess s n) = skel s := by
  unfold finishSuccess
  rcases thread_success_spec (setStatus s n 0) n with ⟨ha, h1, h2, h3, h4, h5⟩
  refine ⟨?_, h1, h2, h3, h4, h5.trans (skel_setStatus s n 0)⟩
  intro m
  rw [ha m, dependentsOf_skel_congr (skel_setStatus s n 0) n]

theorem isAbortExcOf_eval {s : MTState} {n : String} {e1 : TaskEntry}
    {ab : Bool} {m2 : String}
    (he : alookup s.threads n = some e1) (hexc : e1.exception = some (ab, m2)) :
    isAbortExcOf s n = ab := by
  unfold isAbortExcOf
  rw [he]
  show (match e1.exception with
        | some (ab2, _) => ab2
        | none => false) = ab
  rw [hexc]

theorem thread_failure_eval {s : MTState} {n : String} {e1 : TaskEntry}
    {ab : Bool} {m2 : String}
    (he : alookup s.threads n = some e1) (hexc : e1.exception = some (ab, m2)) :
    thread_failure s n
      = (if (abort_dependents
              (incDone (if ab then setStatus s n 2
                else { s with abort := true })).threads.length n
              (incDone (if ab then setStatus s n 2
                else { s with abort := true }))).done_threads
          = ((abort_dependents
              (incDone (if ab then setStatus s n 2
                else { s with abort := true })).threads.length n
              (incDone (if ab then setStatus s n 2
                else { s with abort := true }))).num_threads : Int)
        then { (abort_dependents
              (incDone (if ab then setStatus s n 2
                else { s with abort := true })).threads.length n
              (incDone (if ab then setStatus s n 2
                else { s with abort := true }))) with all_done := true }
        else (abort_dependents
              (incDone (if ab then setStatus s n 2
                else { s with abort := true })).threads.length n
              (incDone (if ab then setStatus s n 2
                else { s with abort := true })))) := by
  unfold thread_failure
  rw [isAbortExcOf_eval he hexc]

theorem branch_threads (c : Prop) [Decidable c] (s3 : MTState) :
    (if c then { s3 with all_done := true } else s3).threads = s3.threads := by
  split <;> rfl

theorem branch_done (c : Prop) [Decidable c] (s3 : MTState) :
    (if c then { s3 with all_done := true } else s3).done_threads = s3.done_threads := by
  split <;> rfl

theorem branch_num (c : Prop) [Decidable c] (s3 : MTState) :
    (if c then { s3 with all_done := true } else s3).num_threads = s3.num_threads := by
  split <;> rfl

theorem branch_abort (c : Prop) [Decidable c] (s3 : MTState) :
    (if c then { s3 with all_done := true } else s3).abort = s3.abort := by
  split <;> rfl

theorem branch_all_done (c : Prop) [Decidable c] (s3 : MTState) :
    (if c then { s3 with all_done := true } else s3).all_done
      = if c then true else s3.all_done := by
  split <;> rfl

/-- Everything `DemoGridThread.run`'s failure path (followed by
`thread_failure`) does, under the forest precondition that the strict
descendants of the failing thread are still pending: the failing thread's
state becomes `2` (aborted by request) or `1` (failed) with the exception
and traceback captured, every strict descendant is marked `3`, the
done-counter increments once for the thread plus once per descendant,
`abort` is raised exactly on a genuine failure, and `all_done` is set
exactly when the counter reaches `num_threads`. -/
theorem finishFailure_spec {sk : List (String × Option String)} {rk : String → Nat}
    (hrk : RankOK sk rk) {s : MTState} {n : String} {e : TaskEntry}
    (isAb : Bool) (msg tb : String)
    (hsk : skel s = sk) (hnd : (s.threads.map Prod.fst).Nodup)
    (he : alookup s.threads n = some e)
    (hdesc : ∀ p ∈ s.threads, isDesc sk p.1 n = true → p.2.status = -1) :
    (∀ m, alookup (finishFailure s n isAb msg tb).threads m
        = if m = n
          then some { e with status := (if isAb then 2 else 1), exception := some (isAb, msg), stack_trace := some tb }
          else if isDesc sk m n
          then (alookup s.threads m).map (fun e2 => { e2 with status := 3 })
          else alookup s.threads m)
    ∧ (finishFailure s n isAb msg tb).done_threads
        = s.done_threads + 1 + ((s.threads.countP (fun p => isDesc sk p.1 n)) : Int)
    ∧ (finishFailure s n isAb msg tb).num_threads = s.num_threads
    ∧ (finishFailure s n isAb msg tb).abort = (if isAb then s.abort else true)
    ∧ ((finishFailure s n isAb msg tb).all_done
        = if s.done_threads + 1 + ((s.threads.countP (fun p => isDesc sk p.1 n)) : Int)
            = (s.num_threads : Int) then true else s.all_done)
    ∧ skel (finishFailure s n isAb msg tb) = sk := by
  have hu1 : ∀ m, alookup (setStatus (updThread s n (fun e0 =>
        { e0 with exception := some (isAb, msg), stack_trace := some tb })) n 1).threads m
      = if m = n
        then some { e with status := 1, exception := some (isAb, msg), stack_trace := some tb }
        else alookup s.threads m := by
    intro m
    by_cases hm : m = n
    · subst hm
      rw [if_pos rfl]
      unfold setStatus
      rw [alookup_updThread_self, alookup_updThread_self, he]
      rfl
    · rw [if_neg hm]
      unfold setStatus
      rw [alookup_updThread_other _ _ _ _ hm, alookup_updThread_other _ _ _ _ hm]
  have hsku1 : skel (setStatus (updThread s n (fun e0 =>
      { e0 with exception := some (isAb, msg), stack_trace := some tb })) n 1) = sk := by
    rw [skel_setStatus, skel_updThread s n (fun e0 =>
      { e0 with exception := some (isAb, msg), stack_trace := some tb })
      (fun e0 => rfl), hsk]
  have hu1n := hu1 n
  rw [if_pos rfl] at hu1n
  have hff : finishFailure s n isAb msg tb
      = thread_failure (setStatus (updThread s n (fun e0 =>
          { e0 with exception := some (isAb, msg), stack_trace := some tb })) n 1) n := rfl
  have hev := thread_failure_eval hu1n rfl
  rw [hev] at hff
  -- characterise the branch state b1
  set u1 := setStatus (updThread s n (fun e0 =>
    { e0 with exception := some (isAb, msg), stack_trace := some tb })) n 1 with hu1def
  set b1 := if isAb = true then setStatus u1 n 2 else { u1 with abort := true } with hb1def
  have hb1look : ∀ m, alookup b1.threads m
      = if m = n
        then some { e with status := (if isAb then 2 else 1), exception := some (isAb, msg), stack_trace := some tb }
        else alookup s.threads m := by
    intro m
    cases isAb with
    | false =>
      rw [hb1def]
      simp only [Bool.false_eq_true, if_false]
      show alookup u1.threads m = _
      rw [hu1 m]
    | true =>
      rw [hb1def]
      simp only [if_true]
      unfold setStatus
      by_cases hm : m = n
      · subst hm
        rw [if_pos rfl, alookup_updThread_self, hu1n]
        rfl
      · rw [if_neg hm, alookup_updThread_other _ _ _ _ hm, hu1 m, if_neg hm]
  have hb1done : b1.done_threads = s.done_threads := by
    cases isAb with
    | false => rw [hb1def]; rfl
    | true => rw [hb1def]; rfl
  have hb1num : b1.num_threads = s.num_threads := by
    cases isAb with
    | false => rw [hb1def]; rfl
    | true => rw [hb1def]; rfl
  have hb1abort : b1.abort = (if isAb then s.abort else true) := by
    cases isAb with
    | false => rw [hb1def]; rfl
    | true => rw [hb1def]; rfl
  have hb1all : b1.all_done = s.all_done := by
    cases isAb with
    | false => rw [hb1def]; rfl
    | true => rw [hb1def]; rfl
  have hb1skel : skel b1 = sk := by
    cases isAb with
    | false => rw [hb1def]; simp only [Bool.false_eq_true, if_false]; exact hsku1
    | true =>
      rw [hb1def]
      simp only [if_true]
      rw [skel_setStatus]
      exact hsku1
  have hkeys2 : (incDone b1).threads.map Prod.fst = s.threads.map Prod.fst := by
    rw [keys_eq_skel, show skel (incDone b1) = sk from hb1skel, ← hsk, ← keys_eq_skel]
  have hnds2 : ((incDone b1).threads.map Prod.fst).Nodup := by
    rw [hkeys2]
    exact hnd
  have hsks2 : skel (incDone b1) = sk := hb1skel
  have hpre2 : ∀ p ∈ (incDone b1).threads, isDesc sk p.1 n = true → p.2.status = -1 := by
    intro p hp hdp
    have hlp : alookup (incDone b1).threads p.1 = some p.2 :=
      mem_alookup hnds2 (by rw [Prod.mk.eta]; exact hp)
    by_cases hpn : p.1 = n
    · rw [hpn, isDesc_irrefl hrk] at hdp
      cases hdp
    · rw [show alookup (incDone b1).threads p.1 = alookup b1.threads p.1 from rfl,
        hb1look p.1, if_neg hpn] at hlp
      exact hdesc (p.1, p.2) (alookup_mem hlp) hdp
  have hbound : (sk.filter (fun p => rk n < rk p.1)).length
      ≤ (incDone b1).threads.length := by
    have h1 := List.length_filter_le (fun p => decide (rk n < rk p.1)) sk
    have h2 : (incDone b1).threads.length = sk.length := by
      rw [← skel_length, hsks2]
    omega
  have hco := abort_dependents_spec hrk (incDone b1).threads.length n (incDone b1)
    hsks2 hnds2 hbound hpre2
  have hcnt := cascadeOut_count hco hpre2
  have hcnt2 : (incDone b1).threads.countP (fun p => isDesc sk p.1 n)
      = s.threads.countP (fun p => isDesc sk p.1 n) :=
    countP_keyonly_of_keys_eq hkeys2 (fun k => isDesc sk k n)
  set s3 := abort_dependents (incDone b1).threads.length n (incDone b1) with hs3def
  have hs3done : s3.done_threads
      = s.done_threads + 1 + ((s.threads.countP (fun p => isDesc sk p.1 n)) : Int) := by
    rw [hcnt, hcnt2]
    show (incDone b1).done_threads + _ = _
    rw [show (incDone b1).done_threads = b1.done_threads + 1 from rfl, hb1done]
  have hs3num : s3.num_threads = s.num_threads := by
    rw [hco.2.2.1]
    show b1.num_threads = s.num_threads
    exact hb1num
  have hs3abort : s3.abort = (if isAb then s.abort else true) := by
    rw [hco.2.2.2.1]
    show b1.abort = _
    exact hb1abort
  have hs3all : s3.all_done = s.all_done := by
    rw [hco.2.2.2.2]
    show b1.all_done = _
    exact hb1all
  have hs3skel : skel s3 = sk := (cascadeOut_skel hco).trans hsks2
  have hs3look : ∀ m, alookup s3.threads m
      = if m = n
        then some { e with status := (if isAb then 2 else 1), exception := some (isAb, msg), stack_trace := some tb }
        else if isDesc sk m n
        then (alookup s.threads m).map (fun e2 => { e2 with status := 3 })
        else alookup s.threads m := by
    intro m
    rw [cascadeOut_alookup hco m]
    by_cases hm : m = n
    · subst hm
      rw [isDesc_irrefl hrk]
      simp only [Bool.false_eq_true, if_false]
      rw [show alookup (incDone b1).threads m = alookup b1.threads m from rfl,
        hb1look m]
      simp
    · cases hdm : isDesc sk m n with
      | false =>
        simp only [Bool.false_eq_true, if_false]
        rw [show alookup (incDone b1).threads m = alookup b1.threads m from rfl,
          hb1look m]
      | true =>
        simp only [if_true]
        rw [show alookup (incDone b1).threads m = alookup b1.threads m from rfl,
          hb1look m]
        simp [hm]
  rw [hff]
  refine ⟨?_, ?_, ?_, ?_, ?_, ?_⟩
  · intro m
    rw [branch_threads]
    exact hs3look m
  · rw [branch_done]
    exact hs3done
  · rw [branch_num]
    exact hs3num
  · rw [branch_abort]
    exact hs3abort
  · rw [branch_all_done, hs3done, hs3num, hs3all]
  · rw [show skel (if s3.done_threads = (s3.num_threads : Int)
      then { s3 with all_done := true } else s3) = skel s3 from by split <;> rfl]
    exact hs3skel

/-! ## Bridging pointwise lookups to list-level maps -/

theorem threads_eq_map_of_lookup {l1 l2 : List (String × TaskEntry)}
    (hk : l2.map Prod.fst = l1.map Prod.fst) (hnd : (l1.map Prod.fst).Nodup)
    (g : String × TaskEntry → TaskEntry)
    (hlook : ∀ m e, alookup l1 m = some e → alookup l2 m = some (g (m, e))) :
    l2 = l1.map (fun p => (p.1, g p)) := by
  induction l1 generalizing l2 with
  | nil =>
    cases l2 with
    | nil => rfl
    | cons q t2 => cases hk
  | cons p t1 ih =>
    cases l2 with
    | nil => cases hk
    | cons q t2 =>
      rw [List.map_cons, List.map_cons] at hk
      injection hk with hk1 hk2
      rw [List.map_cons, List.nodup_cons] at hnd
      have hl1 : alookup (p :: t1) p.1 = some p.2 := by
        simp [alookup]
      have hl2 := hlook p.1 p.2 hl1
      rw [show alookup (q :: t2) p.1 = some q.2 from by simp [alookup, hk1]] at hl2
      injection hl2 with hl2e
      have hq : q = (p.1, g p) := by
        rw [← hk1, ← hl2e, Prod.mk.eta]
      rw [List.map_cons, hq]
      congr 1
      apply ih hk2 hnd.2
      intro m e hme
      have hmnp : m ≠ p.1 := by
        intro hc
        apply hnd.1
        rw [← hc]
        exact List.mem_map_of_mem Prod.fst (alookup_mem hme)
      have hfull : alookup (p :: t1) m = some e := by
        show (if p.1 = m then some p.2 else alookup t1 m) = some e
        rw [if_neg (fun hc => hmnp hc.symm)]
        exact hme
      have hthis := hlook m e hfull
      have hqt : alookup (q :: t2) m = alookup t2 m := by
        show (if q.1 = m then some q.2 else alookup t2 m) = alookup t2 m
        rw [if_neg]
        intro hc
        exact hmnp (hc ▸ hk1)
      rw [hqt] at hthis
      exact hthis

theorem countP_or_split {α : Type} (l : List α) (a b : α → Bool)
    (hdisj : ∀ x ∈ l, ¬(a x = true ∧ b x = true)) :
    l.countP (fun x => a x || b x) = l.countP a + l.countP b := by
  induction l with
  | nil => rfl
  | cons x l ih =>
    rw [List.countP_cons, List.countP_cons, List.countP_cons,
      ih (fun y hy => hdisj y (List.mem_cons_of_mem _ hy))]
    cases ha : a x <;> cases hb : b x
    · simp
    · simp
      omega
    · simp
      omega
    · exact absurd ⟨ha, hb⟩ (hdisj x (List.mem_cons_self _ _))

theorem countP_key_one {l : List (String × TaskEntry)} {n : String}
    (hnd : (l.map Prod.fst).Nodup) (hmem : n ∈ l.map Prod.fst) :
    l.countP (fun p => p.1 = n) = 1 := by
  induction l with
  | nil => cases hmem
  | cons p l ih =>
    rw [List.map_cons, List.nodup_cons] at hnd
    rw [List.countP_cons]
    rcases List.mem_cons.mp hmem with h1 | h1
    · have hzero : l.countP (fun p => p.1 = n) = 0 := by
        apply List.countP_eq_zero.mpr
        intro q hq hqn
        have : q.1 = n := of_decide_eq_true hqn
        exact hnd.1 (h1 ▸ this ▸ List.mem_map_of_mem Prod.fst hq)
      rw [hzero]
      simp [h1]
    · have hpn : p.1 ≠ n := by
        intro hc
        exact hnd.1 (hc ▸ h1)
      rw [ih hnd.2 h1]
      simp [hpn]

/-! ## The invariant: initialisation and consequences -/

theorem coordInv_init (P : String → Prop) (regs : List (String × Option String)) :
    CoordInv P (skel (mkState regs)) (runStart (mkState regs)) := by
  have hfresh := mkState_fresh regs
  have hfresh2 : ∀ p ∈ (runStart (mkState regs)).threads, FreshEntry p.2 := hfresh
  refine ⟨rfl, mkState_keys_nodup regs, ?_, ?_, ?_, ?_, ?_, ?_, ?_, ?_, ?_, ?_, ?_, ?_, ?_⟩
  · intro p hp
    exact Or.inl (hfresh2 p hp).2.1
  · intro p hp _
    exact Or.inl (hfresh2 p hp).2.1
  · intro p hp h3
    rw [(hfresh2 p hp).2.1] at h3
    cases h3
  · intro p hp hst
    rw [(hfresh2 p hp).1] at hst
    cases hst
  · intro p hp h0
    rw [(hfresh2 p hp).2.1] at h0
    cases h0
  · intro p hp hbad
    rcases hbad with h | h | h <;> (rw [(hfresh2 p hp).2.1] at h; cases h)
  · intro q hq h3
    rw [(hfresh2 q hq).2.1] at h3
    cases h3
  · intro p hp h1
    rw [(hfresh2 p hp).2.1] at h1
    cases h1
  · intro p hp h2
    rw [(hfresh2 p hp).2.1] at h2
    cases h2
  · intro p hp _
    exact ⟨(hfresh2 p hp).2.2.1, (hfresh2 p hp).2.2.2⟩
  · show (0 : Int) = _
    have hz : (runStart (mkState regs)).threads.countP (fun p => p.2.status ≠ -1) = 0 := by
      apply List.countP_eq_zero.mpr
      intro p hp
      simp [(hfresh2 p hp).2.1]
    rw [hz]
    rfl
  · have hz : (runStart (mkState regs)).all_done = false := by
      show (mkState regs).all_done = false
      have : ∀ (rs : List (String × Option String)) (s : MTState),
          (rs.foldl (fun s r => add_thread s r.1 r.2) s).all_done = s.all_done := by
        intro rs
        induction rs with
        | nil => intro s; rfl
        | cons r rs ih => intro s; rw [List.foldl_cons, ih]; rfl
      exact this regs MTinit
    rw [hz]
    constructor
    · intro h
      cases h
    · rintro ⟨h1, h2⟩
      exfalso
      have h3 : (0 : Int) = ((runStart (mkState regs)).num_threads : Int) := h1
      omega
  · show (mkState regs).threads.length ≤ (mkState regs).num_threads
    rw [mkState_num]
    exact mkState_len_le regs

theorem done_lt_num_of_pending {P : String → Prop} {sk : List (String × Option String)}
    {s : MTState} (hinv : CoordInv P sk s) {n : String} {e : TaskEntry}
    (he : alookup s.threads n = some e) (hstat : e.status = -1) :
    s.done_threads < (s.num_threads : Int) := by
  have hcnt : s.threads.countP (fun p => p.2.status ≠ -1) < s.threads.length := by
    have h1 : s.threads.countP (fun p => true) = s.threads.length := by
      apply List.countP_eq_length.mpr
      intro a _
      rfl
    rw [← h1]
    apply countP_strict_sub s.threads _ _ (fun a _ _ => rfl) (alookup_mem he)
    · rfl
    · simp [hstat]
  have hd := hinv.doneCount
  have hn := hinv.numGe
  omega

theorem desc_pending {P : String → Prop} {sk : List (String × Option String)}
    {rk : String → Nat} (hrk : RankOK sk rk) {s : MTState}
    (hinv : CoordInv P sk s) {n : String} {e : TaskEntry}
    (he : alookup s.threads n = some e) (hst : e.status = -1) :
    ∀ p ∈ s.threads, isDesc sk p.1 n = true →
      p.2.status = -1 ∧ p.2.started = false := by
  suffices h : ∀ N p, rk p.1 ≤ N → p ∈ s.threads → isDesc sk p.1 n = true →
      p.2.status = -1 ∧ p.2.started = false by
    intro p hp hd
    exact h (rk p.1) p (le_refl _) hp hd
  intro N
  induction N with
  | zero =>
    intro p h0 hp hd
    cases hpp : parentOf sk p.1 with
    | none => rw [isDesc_none hpp] at hd; cases hd
    | some d =>
      have := (parentOf_rank hrk hpp).1
      omega
  | succ N ih =>
    intro p hN hp hd
    have hlp : alookup s.threads p.1 = some p.2 :=
      mem_alookup hinv.nodup (by rw [Prod.mk.eta]; exact hp)
    cases hpp : parentOf sk p.1 with
    | none => rw [isDesc_none hpp] at hd; cases hd
    | some d =>
      have hdr := (parentOf_rank hrk hpp).1
      -- p's stored dependency is exactly d
      have hdep : p.2.depends = some d := by
        have hps := parentOf_skel s p.1
        rw [hinv.hskel, hpp, hlp] at hps
        exact hps.symm
      -- the parent entry is pending
      have hdpend : ∃ ed, alookup s.threads d = some ed ∧ ed.status = -1 := by
        rw [isDesc_parent hrk hpp] at hd
        rcases bor_elim hd with hcase | hcase
        · have hdn : d = n := of_decide_eq_true hcase
          exact ⟨e, hdn ▸ he, hst⟩
        · have hdk : d ∈ sk.map Prod.fst := (parentOf_rank hrk hpp).2.1
          have hdk2 : d ∈ s.threads.map Prod.fst := by
            rw [keys_eq_skel, hinv.hskel]
            exact hdk
          rcases alookup_isSome_of_key_mem hdk2 with ⟨ed, hed⟩
          have := ih (d, ed) (by show rk d ≤ N; omega) (alookup_mem hed) hcase
          exact ⟨ed, hed, this.1⟩
      rcases hdpend with ⟨ed, hed, hedst⟩
      -- p cannot be started (its dependency is not succeeded)
      have hnstart : p.2.started = false := by
        cases hps : p.2.started
        · rfl
        · exfalso
          rcases hinv.startedDep p hp hps d hdep with ⟨ed2, hed2, hed2st⟩
          rw [hed] at hed2
          injection hed2 with hed2e
          rw [← hed2e] at hed2st
          rw [hed2st] at hedst
          cases hedst
      refine ⟨?_, hnstart⟩
      rcases hinv.notStarted p hp hnstart with h1 | h1
      · exact h1
      · exfalso
        rcases hinv.skipParent p hp h1 with ⟨d2, ed2, hdep2, hed2, hbad⟩
        rw [hdep] at hdep2
        injection hdep2 with hdd
        rw [← hdd, hed] at hed2
        injection hed2 with hed2e
        rw [← hed2e] at hbad
        rcases hbad with h | h | h <;> (rw [h] at hedst; cases hedst)

/-! ## Invariant preservation: the `start` transition -/

theorem coordInv_preserve_start {P : String → Prop}
    {sk : List (String × Option String)} {s : MTState} {n : String} {e : TaskEntry}
    (hinv : CoordInv P sk s) (he : alookup s.threads n = some e)
    (hdep : e.depends = none) (hstart : e.started = false) :
    CoordInv P sk (startThread s n) := by
  have hmem : (n, e) ∈ s.threads := alookup_mem he
  have hest : e.status = -1 := by
    rcases hinv.notStarted (n, e) hmem hstart with h1 | h1
    · exact h1
    · exfalso
      rcases hinv.skipParent (n, e) hmem h1 with ⟨d, ed, hd, _, _⟩
      rw [show ((n, e).2.depends) = e.depends from rfl, hdep] at hd
      cases hd
  have L : ∀ m, alookup (startThread s n).threads m
      = if m = n then some { e with started := true } else alookup s.threads m := by
    intro m
    by_cases hm : m = n
    · subst hm
      rw [if_pos rfl, alookup_startThread_self, he]
      rfl
    · rw [if_neg hm, alookup_startThread_other s n m hm]
  have hskel2 : skel (startThread s n) = sk := (skel_startThread s n).trans hinv.hskel
  have hkeys : (startThread s n).threads.map Prod.fst = s.threads.map Prod.fst := by
    rw [keys_eq_skel, hskel2, ← hinv.hskel, ← keys_eq_skel]
  have hnd2 : ((startThread s n).threads.map Prod.fst).Nodup := by
    rw [hkeys]
    exact hinv.nodup
  have hdec : ∀ p ∈ (startThread s n).threads,
      (p.1 = n ∧ p.2 = { e with started := true })
      ∨ ((p.1, p.2) ∈ s.threads ∧ p.1 ≠ n) := by
    intro p hp
    have hlp : alookup (startThread s n).threads p.1 = some p.2 :=
      mem_alookup hnd2 (by rw [Prod.mk.eta]; exact hp)
    rw [L p.1] at hlp
    by_cases hpn : p.1 = n
    · rw [if_pos hpn] at hlp
      injection hlp with h
      exact Or.inl ⟨hpn, h.symm⟩
    · rw [if_neg hpn] at hlp
      exact Or.inr ⟨alookup_mem hlp, hpn⟩
  refine ⟨hskel2, hnd2, ?_, ?_, ?_, ?_, ?_, ?_, ?_, ?_, ?_, ?_, ?_, ?_, ?_⟩
  · intro p hp
    rcases hdec p hp with ⟨_, h2⟩ | ⟨h1, _⟩
    · rw [h2]
      exact Or.inl hest
    · exact hinv.statusRange _ h1
  · intro p hp hSt
    rcases hdec p hp with ⟨_, h2⟩ | ⟨h1, _⟩
    · rw [h2] at hSt
      simp at hSt
    · exact hinv.notStarted _ h1 hSt
  · intro p hp h3
    rcases hdec p hp with ⟨_, h2⟩ | ⟨h1, _⟩
    · rw [h2] at h3
      simp [hest] at h3
    · exact hinv.skipNotStarted _ h1 h3
  · intro p hp hSt d hd
    rcases hdec p hp with ⟨_, h2⟩ | ⟨h1, _⟩
    · rw [h2] at hd
      simp [hdep] at hd
    · rcases hinv.startedDep _ h1 hSt d hd with ⟨ed, hed, hed0⟩
      refine ⟨ed, ?_, hed0⟩
      rw [L d, if_neg ?_]
      · exact hed
      · intro hc
        rw [hc, he] at hed
        injection hed with hh
        rw [← hh] at hed0
        rw [hest] at hed0
        cases hed0
  · intro p hp h0 q hq hqd
    rcases hdec p hp with ⟨_, h2⟩ | ⟨h1, _⟩
    · rw [h2] at h0
      simp [hest] at h0
    · rcases hdec q hq with ⟨_, hq2⟩ | ⟨hq1, _⟩
      · rw [hq2]
      · exact hinv.succChildren _ h1 h0 _ hq1 hqd
  · intro p hp hbad q hq hqd
    rcases hdec p hp with ⟨_, h2⟩ | ⟨h1, _⟩
    · rw [h2] at hbad
      rcases hbad with h | h | h <;> simp [hest] at h
    · rcases hdec q hq with ⟨_, hq2⟩ | ⟨hq1, _⟩
      · rw [hq2] at hqd
        simp [hdep] at hqd
      · exact hinv.badChildren _ h1 hbad _ hq1 hqd
  · intro q hq h3
    rcases hdec q hq with ⟨_, hq2⟩ | ⟨hq1, _⟩
    · rw [hq2] at h3
      simp [hest] at h3
    · rcases hinv.skipParent _ hq1 h3 with ⟨d, ed, hd, hed, hbad⟩
      refine ⟨d, ed, hd, ?_, hbad⟩
      rw [L d, if_neg ?_]
      · exact hed
      · intro hc
        rw [hc, he] at hed
        injection hed with hh
        rw [← hh] at hbad
        rcases hbad with h | h | h <;> (rw [hest] at h; cases h)
  · intro p hp h1s
    rcases hdec p hp with ⟨_, h2⟩ | ⟨h1, _⟩
    · rw [h2] at h1s
      simp [hest] at h1s
    · exact hinv.excFail _ h1 h1s
  · intro p hp h2s
    rcases hdec p hp with ⟨_, h2⟩ | ⟨h1, _⟩
    · rw [h2] at h2s
      simp [hest] at h2s
    · exact hinv.excAbort _ h1 h2s
  · intro p hp hst3
    rcases hdec p hp with ⟨hp1, h2⟩ | ⟨h1, _⟩
    · rw [h2]
      exact hinv.excNone (n, e) hmem (Or.inl hest)
    · exact hinv.excNone _ h1 hst3
  · show s.done_threads = _
    rw [hinv.doneCount]
    have hc := countP_updThread (fun p => decide (p.2.status ≠ -1))
      (fun e0 => { e0 with started := true }) hinv.nodup he
    simp only [hest] at hc
    norm_num at hc
    norm_num
    exact_mod_cast hc.symm
  · exact hinv.allDone
  · have hlen : (startThread s n).threads.length = s.threads.length :=
      List.length_map _ _
    show (startThread s n).threads.length ≤ s.num_threads
    rw [hlen]
    exact hinv.numGe

/-! ## Invariant preservation: the `finishOk` transition -/

theorem coordInv_preserve_ok {P : String → Prop}
    {sk : List (String × Option String)} {rk : String → Nat} (hrk : RankOK sk rk)
    {s : MTState} {n : String} {e : TaskEntry}
    (hinv : CoordInv P sk s) (he : alookup s.threads n = some e)
    (hstart : e.started = true) (hstat : e.status = -1) :
    CoordInv P sk (finishSuccess s n) := by
  have hmem : (n, e) ∈ s.threads := alookup_mem he
  have hchild : ∀ m e0, alookup s.threads m = some e0 → e0.depends = some n →
      e0.started = false ∧ e0.status = -1 := by
    intro m e0 hm hd
    have hmem0 := alookup_mem hm
    have hnstart : e0.started = false := by
      cases hs0 : e0.started
      · rfl
      · exfalso
        rcases hinv.startedDep (m, e0) hmem0 hs0 n hd with ⟨ed, hed, hed0⟩
        rw [he] at hed
        injection hed with hh
        rw [← hh] at hed0
        rw [hstat] at hed0
        cases hed0
    refine ⟨hnstart, ?_⟩
    rcases hinv.notStarted _ hmem0 hnstart with h1 | h1
    · exact h1
    · exfalso
      rcases hinv.skipParent _ hmem0 h1 with ⟨d, ed, hd2, hed, hbad⟩
      rw [show ((m, e0).2.depends) = e0.depends from rfl, hd] at hd2
      injection hd2 with hdd
      rw [← hdd, he] at hed
      injection hed with hh
      rw [← hh] at hbad
      rw [hstat] at hbad
      rcases hbad with h | h | h <;> omega
  have hnotself : n ∉ dependentsOf s n := by
    intro hc
    rcases mem_dependentsOf.mp hc with ⟨e0, hm0, hd0⟩
    have hl0 := mem_alookup hinv.nodup hm0
    rw [he] at hl0
    injection hl0 with hh
    rcases hchild n e he (hh ▸ hd0) with ⟨hf, _⟩
    rw [hstart] at hf
    cases hf
  rcases finishSuccess_spec s n with ⟨ha, h1, h2, h3, h4, h5⟩
  have hsetlook : ∀ m, alookup (setStatus s n 0).threads m
      = if m = n then some { e with status := 0 } else alookup s.threads m := by
    intro m
    by_cases hm : m = n
    · subst hm
      rw [if_pos rfl]
      unfold setStatus
      rw [alookup_updThread_self, he]
      rfl
    · rw [if_neg hm]
      unfold setStatus
      rw [alookup_updThread_other _ _ _ _ hm]
  have L : ∀ m, alookup (finishSuccess s n).threads m
      = if m = n then some { e with status := 0 }
        else if m ∈ dependentsOf s n
        then (alookup s.threads m).map (fun e0 => { e0 with started := true })
        else alookup s.threads m := by
    intro m
    rw [ha m]
    by_cases hm : m = n
    · subst hm
      rw [if_neg hnotself, hsetlook m, if_pos rfl, if_pos rfl]
    · by_cases hmd : m ∈ dependentsOf s n
      · rw [if_pos hmd, hsetlook m, if_neg hm, if_neg hm, if_pos hmd]
      · rw [if_neg hmd, hsetlook m, if_neg hm, if_neg hm, if_neg hmd]
  have hskel2 : skel (finishSuccess s n) = sk := h5.trans hinv.hskel
  have hkeys : (finishSuccess s n).threads.map Prod.fst = s.threads.map Prod.fst := by
    rw [keys_eq_skel, hskel2, ← hinv.hskel, ← keys_eq_skel]
  have hnd2 : ((finishSuccess s n).threads.map Prod.fst).Nodup := by
    rw [hkeys]
    exact hinv.nodup
  have hdec : ∀ p ∈ (finishSuccess s n).threads,
      (p.1 = n ∧ p.2 = { e with status := 0 })
      ∨ (p.1 ≠ n ∧ p.1 ∈ dependentsOf s n ∧ ∃ e0, (p.1, e0) ∈ s.threads
          ∧ e0.depends = some n ∧ e0.status = -1 ∧ e0.started = false
          ∧ p.2 = { e0 with started := true })
      ∨ ((p.1, p.2) ∈ s.threads ∧ p.1 ≠ n ∧ p.1 ∉ dependentsOf s n) := by
    intro p hp
    have hlp : alookup (finishSuccess s n).threads p.1 = some p.2 :=
      mem_alookup hnd2 (by rw [Prod.mk.eta]; exact hp)
    rw [L p.1] at hlp
    by_cases hpn : p.1 = n
    · rw [if_pos hpn] at hlp
      injection hlp with hh
      exact Or.inl ⟨hpn, hh.symm⟩
    · rw [if_neg hpn] at hlp
      by_cases hpd : p.1 ∈ dependentsOf s n
      · rw [if_pos hpd] at hlp
        cases hl0 : alookup s.threads p.1 with
        | none => rw [hl0] at hlp; cases hlp
        | some e0 =>
          rw [hl0] at hlp
          injection hlp with hh
          have hdep0 : e0.depends = some n := by
            rcases mem_dependentsOf.mp hpd with ⟨e1, hm1, hd1⟩
            have := mem_alookup hinv.nodup hm1
            rw [hl0] at this
            injection this with hh2
            exact hh2 ▸ hd1
          rcases hchild p.1 e0 hl0 hdep0 with ⟨hst0, hsa0⟩
          exact Or.inr (Or.inl ⟨hpn, hpd, e0, alookup_mem hl0, hdep0, hsa0, hst0, hh.symm⟩)
      · rw [if_neg hpd] at hlp
        exact Or.inr (Or.inr ⟨alookup_mem hlp, hpn, hpd⟩)
  refine ⟨hskel2, hnd2, ?_, ?_, ?_, ?_, ?_, ?_, ?_, ?_, ?_, ?_, ?_, ?_, ?_⟩
  · intro p hp
    rcases hdec p hp with ⟨_, h2e⟩ | ⟨_, _, e0, _, _, hsa0, _, h2e⟩ | ⟨h1m, _, _⟩
    · rw [h2e]
      exact Or.inr (Or.inl rfl)
    · rw [h2e]
      exact Or.inl hsa0
    · exact hinv.statusRange _ h1m
  · intro p hp hSt
    rcases hdec p hp with ⟨_, h2e⟩ | ⟨_, _, e0, _, _, _, _, h2e⟩ | ⟨h1m, _, _⟩
    · rw [h2e] at hSt
      simp [hstart] at hSt
    · rw [h2e] at hSt
      simp at hSt
    · exact hinv.notStarted _ h1m hSt
  · intro p hp h3e
    rcases hdec p hp with ⟨_, h2e⟩ | ⟨_, _, e0, _, _, hsa0, _, h2e⟩ | ⟨h1m, _, _⟩
    · rw [h2e] at h3e
      simp at h3e
    · rw [h2e] at h3e
      simp [hsa0] at h3e
    · exact hinv.skipNotStarted _ h1m h3e
  · intro p hp hSt d hd
    have hlookup_case : ∀ ed, alookup s.threads d = some ed → ed.status = 0 →
        ∃ ed2, alookup (finishSuccess s n).threads d = some ed2 ∧ ed2.status = 0 := by
      intro ed hed hed0
      rw [L d]
      by_cases hdn : d = n
      · exfalso
        rw [hdn, he] at hed
        injection hed with hh
        rw [← hh] at hed0
        rw [hstat] at hed0
        cases hed0
      · rw [if_neg hdn]
        by_cases hdd : d ∈ dependentsOf s n
        · rw [if_pos hdd, hed]
          exact ⟨{ ed with started := true }, rfl, hed0⟩
        · rw [if_neg hdd, hed]
          exact ⟨ed, rfl, hed0⟩
    rcases hdec p hp with ⟨hp1, h2e⟩ | ⟨_, _, e0, hm0, hd0, _, _, h2e⟩ | ⟨h1m, _, _⟩
    · rw [h2e] at hd
      rcases hinv.startedDep (n, e) hmem hstart d hd with ⟨ed, hed, hed0⟩
      exact hlookup_case ed hed hed0
    · rw [h2e] at hd
      have hdn : d = n := by
        rw [show ({ e0 with started := true } : TaskEntry).depends = e0.depends
          from rfl, hd0] at hd
        injection hd with hh
        exact hh.symm
      subst hdn
      rw [L d, if_pos rfl]
      exact ⟨{ e with status := 0 }, rfl, rfl⟩
    · rcases hinv.startedDep _ h1m hSt d hd with ⟨ed, hed, hed0⟩
      exact hlookup_case ed hed hed0
  · intro p hp h0 q hq hqd
    rcases hdec q hq with ⟨hq1, hq2e⟩ | ⟨_, _, e0, _, _, _, _, hq2e⟩ | ⟨hq1m, _, hqnd⟩
    · -- q is the n-entry: its stored dependency points at p
      rcases hdec p hp with ⟨hp1, hp2e⟩ | ⟨_, _, e1, _, _, hsa1, _, hp2e⟩ | ⟨h1m, _, _⟩
      · rw [hq2e]
        exact hstart
      · rw [hp2e] at h0
        simp [hsa1] at h0
      · rw [hq2e] at hqd ⊢
        exact hinv.succChildren _ h1m h0 (n, e) hmem hqd
    · rw [hq2e]
    · rcases hdec p hp with ⟨hp1, hp2e⟩ | ⟨_, _, e1, _, _, hsa1, _, hp2e⟩ | ⟨h1m, _, _⟩
      · exfalso
        apply hqnd
        apply mem_dependentsOf.mpr
        exact ⟨q.2, hq1m, by rw [hqd, hp1]⟩
      · rw [hp2e] at h0
        simp [hsa1] at h0
      · exact hinv.succChildren _ h1m h0 _ hq1m hqd
  · intro p hp hbad q hq hqd
    rcases hdec p hp with ⟨hp1, hp2e⟩ | ⟨_, _, e1, _, _, hsa1, _, hp2e⟩ | ⟨h1m, hpn, _⟩
    · rw [hp2e] at hbad
      rcases hbad with h | h | h <;> simp at h
    · rw [hp2e] at hbad
      rcases hbad with h | h | h <;> simp [hsa1] at h
    · rcases hdec q hq with ⟨hq1, hq2e⟩ | ⟨_, _, e0, _, hd0, _, _, hq2e⟩ | ⟨hq1m, _, _⟩
      · exfalso
        rw [hq2e] at hqd
        have := hinv.badChildren _ h1m hbad (n, e) hmem hqd
        rw [show ((n, e).2.status) = e.status from rfl, hstat] at this
        cases this
      · exfalso
        rw [hq2e, show ({ e0 with started := true } : TaskEntry).depends = e0.depends
          from rfl, hd0] at hqd
        injection hqd with hh
        exact hpn hh.symm
      · exact hinv.badChildren _ h1m hbad _ hq1m hqd
  · intro q hq h3e
    rcases hdec q hq with ⟨_, hq2e⟩ | ⟨_, _, e0, _, _, hsa0, _, hq2e⟩ | ⟨hq1m, _, _⟩
    · rw [hq2e] at h3e
      simp at h3e
    · rw [hq2e] at h3e
      simp [hsa0] at h3e
    · rcases hinv.skipParent _ hq1m h3e with ⟨d, ed, hd, hed, hbad⟩
      have hdn : d ≠ n := by
        intro hc
        rw [hc, he] at hed
        injection hed with hh
        rw [← hh] at hbad
        rw [hstat] at hbad
        rcases hbad with h | h | h <;> omega
      by_cases hdd : d ∈ dependentsOf s n
      · refine ⟨d, { ed with started := true }, hd, ?_, hbad⟩
        rw [L d, if_neg hdn, if_pos hdd, hed]
        rfl
      · refine ⟨d, ed, hd, ?_, hbad⟩
        rw [L d, if_neg hdn, if_neg hdd, hed]
  · intro p hp h1s
    rcases hdec p hp with ⟨_, h2e⟩ | ⟨_, _, e0, _, _, hsa0, _, h2e⟩ | ⟨h1m, _, _⟩
    · rw [h2e] at h1s
      simp at h1s
    · rw [h2e] at h1s
      simp [hsa0] at h1s
    · exact hinv.excFail _ h1m h1s
  · intro p hp h2s
    rcases hdec p hp with ⟨_, h2e⟩ | ⟨_, _, e0, _, _, hsa0, _, h2e⟩ | ⟨h1m, _, _⟩
    · rw [h2e] at h2s
      simp at h2s
    · rw [h2e] at h2s
      simp [hsa0] at h2s
    · exact hinv.excAbort _ h1m h2s
  · intro p hp hst3
    rcases hdec p hp with ⟨_, h2e⟩ | ⟨_, _, e0, hm0, _, hsa0, _, h2e⟩ | ⟨h1m, _, _⟩
    · rw [h2e]
      exact hinv.excNone (n, e) hmem (Or.inl hstat)
    · rw [h2e]
      exact hinv.excNone (p.1, e0) hm0 (Or.inl hsa0)
    · exact hinv.excNone _ h1m hst3
  · rw [h1, hinv.doneCount]
    have hlist : (finishSuccess s n).threads = s.threads.map (fun p => (p.1,
        if p.1 = n then { p.2 with status := 0 }
        else if p.1 ∈ dependentsOf s n then { p.2 with started := true }
        else p.2)) := by
      apply threads_eq_map_of_lookup hkeys hinv.nodup
      intro m e0 hm0
      rw [L m]
      show _ = some (if m = n then { e0 with status := 0 }
        else if m ∈ dependentsOf s n then { e0 with started := true } else e0)
      by_cases hm : m = n
      · rw [hm] at hm0
        rw [he] at hm0
        injection hm0 with hh
        simp only [if_pos hm]
        rw [hh]
      · simp only [if_neg hm]
        by_cases hmd : m ∈ dependentsOf s n
        · simp only [if_pos hmd]
          rw [hm0]
          rfl
        · simp only [if_neg hmd]
          rw [hm0]
    have hkey1 : s.threads.countP (fun p => p.1 = n) = 1 :=
      countP_key_one hinv.nodup (List.mem_map_of_mem Prod.fst hmem)
    have hsplit := countP_or_split s.threads (fun p => decide (p.1 = n))
      (fun p => decide (p.2.status ≠ -1)) ?_
    · have hcnt2 : (finishSuccess s n).threads.countP (fun p => p.2.status ≠ -1)
          = s.threads.countP (fun p => p.2.status ≠ -1) + 1 := by
        rw [hlist, List.countP_map]
        have hcongr : s.threads.countP ((fun q => decide (q.2.status ≠ -1)) ∘
            (fun p => (p.1,
              if p.1 = n then { p.2 with status := 0 }
              else if p.1 ∈ dependentsOf s n then { p.2 with started := true }
              else p.2)))
            = s.threads.countP (fun p => decide (p.1 = n) || decide (p.2.status ≠ -1)) := by
          apply List.countP_congr
          intro p _
          by_cases hpn : p.1 = n
          · simp [Function.comp, hpn]
          · by_cases hpd : p.1 ∈ dependentsOf s n <;>
              simp [Function.comp, hpn, hpd]
        rw [hcongr, hsplit, hkey1]
        omega
      rw [hcnt2]
      push_cast
      omega
    · rintro x hx ⟨ha, hb⟩
      have hx1 : x.1 = n := of_decide_eq_true ha
      have hlx : alookup s.threads x.1 = some x.2 :=
        mem_alookup hinv.nodup (by rw [Prod.mk.eta]; exact hx)
      rw [hx1, he] at hlx
      injection hlx with hh
      have hb2 : x.2.status ≠ -1 := of_decide_eq_true hb
      exact hb2 (hh ▸ hstat)
  · rw [h4]
    constructor
    · intro hT
      by_cases hc : s.done_threads + 1 = (s.num_threads : Int)
      · have hd0 : (0 : Int) ≤ s.done_threads := by
          rw [hinv.doneCount]
          exact Int.natCast_nonneg _
        refine ⟨by rw [h1, h2]; exact hc, ?_⟩
        rw [h2]
        omega
      · rw [if_neg hc] at hT
        exfalso
        rcases hinv.allDone.mp hT with ⟨hdn, hpos⟩
        have := done_lt_num_of_pending hinv he hstat
        omega
    · rintro ⟨h1c, _⟩
      rw [h1, h2] at h1c
      rw [if_pos h1c]
  · have hlen : (finishSuccess s n).threads.length = s.threads.length := by
      have hlm := congrArg List.length hkeys
      rwa [List.length_map, List.length_map] at hlm
    show (finishSuccess s n).threads.length ≤ (finishSuccess s n).num_threads
    rw [hlen, h2]
    exact hinv.numGe

/-! ## Invariant preservation: the `finishErr` transition -/

theorem coordInv_preserve_err {P : String → Prop}
    {sk : List (String × Option String)} {rk : String → Nat} (hrk : RankOK sk rk)
    {s : MTState} {n : String} {e : TaskEntry} {isAb : Bool} {msg tb : String}
    (hinv : CoordInv P sk s) (he : alookup s.threads n = some e)
    (hstart : e.started = true) (hstat : e.status = -1)
    (hP : isAb = false → P msg) :
    CoordInv P sk (finishFailure s n isAb msg tb) := by
  have hmem : (n, e) ∈ s.threads := alookup_mem he
  have hdesc : ∀ p ∈ s.threads, isDesc sk p.1 n = true → p.2.status = -1 :=
    fun p hp hd => (desc_pending hrk hinv he hstat p hp hd).1
  have hdescFull := desc_pending hrk hinv he hstat
  rcases finishFailure_spec hrk isAb msg tb hinv.hskel hinv.nodup he hdesc with
    ⟨L, h1, h2, h3, h4, h5⟩
  have hparent : ∀ p ∈ s.threads, parentOf sk p.1 = p.2.depends := by
    intro p hp
    have hps := parentOf_skel s p.1
    rw [hinv.hskel] at hps
    rw [hps, mem_alookup hinv.nodup (by rw [Prod.mk.eta]; exact hp)]
    rfl
  have hskel2 : skel (finishFailure s n isAb msg tb) = sk := h5
  have hkeys : (finishFailure s n isAb msg tb).threads.map Prod.fst
      = s.threads.map Prod.fst := by
    rw [keys_eq_skel, hskel2, ← hinv.hskel, ← keys_eq_skel]
  have hnd2 : ((finishFailure s n isAb msg tb).threads.map Prod.fst).Nodup := by
    rw [hkeys]
    exact hinv.nodup
  have hdec : ∀ p ∈ (finishFailure s n isAb msg tb).threads,
      (p.1 = n ∧ p.2 = { e with status := (if isAb then 2 else 1), exception := some (isAb, msg), stack_trace := some tb })
      ∨ (p.1 ≠ n ∧ isDesc sk p.1 n = true ∧ ∃ e0, (p.1, e0) ∈ s.threads
          ∧ e0.status = -1 ∧ e0.started = false ∧ p.2 = { e0 with status := 3 })
      ∨ ((p.1, p.2) ∈ s.threads ∧ p.1 ≠ n ∧ isDesc sk p.1 n = false) := by
    intro p hp
    have hlp : alookup (finishFailure s n isAb msg tb).threads p.1 = some p.2 :=
      mem_alookup hnd2 (by rw [Prod.mk.eta]; exact hp)
    rw [L p.1] at hlp
    by_cases hpn : p.1 = n
    · rw [if_pos hpn] at hlp
      injection hlp with hh
      exact Or.inl ⟨hpn, hh.symm⟩
    · rw [if_neg hpn] at hlp
      cases hd : isDesc sk p.1 n with
      | true =>
        rw [hd] at hlp
        simp only [if_true] at hlp
        cases hl0 : alookup s.threads p.1 with
        | none => rw [hl0] at hlp; cases hlp
        | some e0 =>
          rw [hl0] at hlp
          injection hlp with hh
          have hp0 := hdescFull (p.1, e0) (alookup_mem hl0) hd
          exact Or.inr (Or.inl ⟨hpn, rfl, e0, alookup_mem hl0, hp0.1, hp0.2, hh.symm⟩)
      | false =>
        rw [hd] at hlp
        simp only [Bool.false_eq_true, if_false] at hlp
        exact Or.inr (Or.inr ⟨alookup_mem hlp, hpn, rfl⟩)
  have hkeep : ∀ d ed, alookup s.threads d = some ed →
      (ed.status = 0 ∨ ed.status = 1 ∨ ed.status = 2 ∨ ed.status = 3) →
      alookup (finishFailure s n isAb msg tb).threads d = some ed := by
    intro d ed hed hst0
    rw [L d]
    have hdn : d ≠ n := by
      intro hc
      rw [hc, he] at hed
      injection hed with hh
      rw [← hh, hstat] at hst0
      rcases hst0 with h | h | h | h <;> omega
    have hdd : isDesc sk d n = false := by
      cases hq : isDesc sk d n
      · rfl
      · exfalso
        have := hdesc (d, ed) (alookup_mem hed) hq
        rw [show ((d, ed).2.status) = ed.status from rfl] at this
        rw [this] at hst0
        rcases hst0 with h | h | h | h <;> omega
    rw [if_neg hdn, hdd]
    simp only [Bool.false_eq_true, if_false]
    exact hed
  refine ⟨hskel2, hnd2, ?_, ?_, ?_, ?_, ?_, ?_, ?_, ?_, ?_, ?_, ?_, ?_, ?_⟩
  · intro p hp
    rcases hdec p hp with ⟨_, h2e⟩ | ⟨_, _, e0, _, _, _, h2e⟩ | ⟨h1m, _, _⟩
    · rw [h2e]
      cases isAb <;> simp
    · rw [h2e]
      simp
    · exact hinv.statusRange _ h1m
  · intro p hp hSt
    rcases hdec p hp with ⟨_, h2e⟩ | ⟨_, _, e0, _, _, _, h2e⟩ | ⟨h1m, _, _⟩
    · rw [h2e] at hSt
      simp [hstart] at hSt
    · rw [h2e]
      simp
    · exact hinv.notStarted _ h1m hSt
  · intro p hp h3e
    rcases hdec p hp with ⟨_, h2e⟩ | ⟨_, _, e0, _, _, hsa0, h2e⟩ | ⟨h1m, _, _⟩
    · rw [h2e] at h3e
      cases isAb <;> simp at h3e
    · rw [h2e]
      simp [hsa0]
    · exact hinv.skipNotStarted _ h1m h3e
  · intro p hp hSt d hd
    rcases hdec p hp with ⟨hp1, h2e⟩ | ⟨_, _, e0, _, _, hsa0, h2e⟩ | ⟨h1m, _, _⟩
    · rw [h2e] at hd
      rcases hinv.startedDep (n, e) hmem hstart d hd with ⟨ed, hed, hed0⟩
      exact ⟨ed, hkeep d ed hed (Or.inl hed0), hed0⟩
    · rw [h2e] at hSt
      simp [hsa0] at hSt
    · rcases hinv.startedDep _ h1m hSt d hd with ⟨ed, hed, hed0⟩
      exact ⟨ed, hkeep d ed hed (Or.inl hed0), hed0⟩
  · intro p hp h0 q hq hqd
    rcases hdec p hp with ⟨_, h2e⟩ | ⟨_, _, e0, _, hsa0, _, h2e⟩ | ⟨h1m, hpn, _⟩
    · rw [h2e] at h0
      cases isAb <;> simp at h0
    · rw [h2e] at h0
      simp at h0
    · rcases hdec q hq with ⟨_, hq2e⟩ | ⟨_, _, e0, hm0, _, hqs0, hq2e⟩ | ⟨hq1m, _, _⟩
      · rw [hq2e] at hqd ⊢
        have := hinv.succChildren _ h1m h0 (n, e) hmem hqd
        exact this
      · exfalso
        rw [hq2e] at hqd
        have := hinv.succChildren _ h1m h0 (q.1, e0) hm0 hqd
        rw [show ((q.1, e0).2.started) = e0.started from rfl, hqs0] at this
        cases this
      · exact hinv.succChildren _ h1m h0 _ hq1m hqd
  · intro p hp hbad q hq hqd
    have hqdesc : ∀ hqd2 : parentOf sk q.1 = some p.1, isDesc sk p.1 n = true ∨ p.1 = n →
        isDesc sk q.1 n = true := by
      intro hqd2 hcase
      rw [isDesc_parent hrk hqd2]
      rcases hcase with h | h
      · exact bor_inr h
      · rw [h]
        simp
    have hqdep : q.2.depends = some p.1 → parentOf sk q.1 = some p.1 := by
      intro hqdd
      rcases hdec q hq with ⟨hq1, hq2e⟩ | ⟨_, _, e0, hm0, _, _, hq2e⟩ | ⟨hq1m, _, _⟩
      · rw [hq2e] at hqdd
        rw [hq1, hparent (n, e) hmem]
        exact hqdd
      · rw [hq2e] at hqdd
        rw [hparent (q.1, e0) hm0]
        exact hqdd
      · rw [hparent _ hq1m]
        exact hqdd
    rcases hdec p hp with ⟨hp1, hp2e⟩ | ⟨_, hpd, e0, _, _, _, hp2e⟩ | ⟨h1m, hpn, hpnd⟩
    · -- p is the failing thread: every dependent is a strict descendant
      have hq1d : isDesc sk q.1 n = true := hqdesc (hqdep hqd) (Or.inr hp1)
      rcases hdec q hq with ⟨hq1, hq2e⟩ | ⟨_, _, e0, _, _, _, hq2e⟩ | ⟨_, _, hqnd⟩
      · exfalso
        rw [hq1, isDesc_irrefl hrk] at hq1d
        cases hq1d
      · rw [hq2e]
      · exfalso
        rw [hqnd] at hq1d
        cases hq1d
    · -- p is itself a skipped descendant
      have hq1d : isDesc sk q.1 n = true := hqdesc (hqdep hqd) (Or.inl hpd)
      rcases hdec q hq with ⟨hq1, hq2e⟩ | ⟨_, _, e1, _, _, _, hq2e⟩ | ⟨_, _, hqnd⟩
      · exfalso
        rw [hq1, isDesc_irrefl hrk] at hq1d
        cases hq1d
      · rw [hq2e]
      · exfalso
        rw [hqnd] at hq1d
        cases hq1d
    · -- p keeps its old (bad) state
      rcases hdec q hq with ⟨hq1, hq2e⟩ | ⟨_, _, e0, hm0, hqs0, _, hq2e⟩ | ⟨hq1m, _, _⟩
      · exfalso
        rw [hq2e] at hqd
        have := hinv.badChildren _ h1m hbad (n, e) hmem hqd
        rw [show ((n, e).2.status) = e.status from rfl, hstat] at this
        cases this
      · exfalso
        rw [hq2e] at hqd
        have := hinv.badChildren _ h1m hbad (q.1, e0) hm0 hqd
        rw [show ((q.1, e0).2.status) = e0.status from rfl, hqs0] at this
        cases this
      · exact hinv.badChildren _ h1m hbad _ hq1m hqd
  · intro q hq h3e
    rcases hdec q hq with ⟨_, hq2e⟩ | ⟨hq1n, hqd, e0, hm0, _, _, hq2e⟩ | ⟨hq1m, _, _⟩
    · rw [hq2e] at h3e
      cases isAb <;> simp at h3e
    · -- the parent of a newly skipped thread is the failing thread or skipped
      cases hpp : parentOf sk q.1 with
      | none =>
        exfalso
        rw [isDesc_none hpp] at hqd
        cases hqd
      | some d =>
        have hddep : q.2.depends = some d := by
          rw [hq2e]
          show e0.depends = some d
          have := hparent (q.1, e0) hm0
          rw [hpp] at this
          exact this.symm
        rw [isDesc_parent hrk hpp] at hqd
        rcases bor_elim hqd with hcase | hcase
        · have hdn : d = n := of_decide_eq_true hcase
          refine ⟨d, { e with status := (if isAb then 2 else 1), exception := some (isAb, msg), stack_trace := some tb }, hddep, ?_, ?_⟩
          · rw [L d, if_pos hdn]
          · cases isAb <;> simp
        · have hdk : d ∈ s.threads.map Prod.fst := by
            rw [keys_eq_skel, hinv.hskel]
            exact (parentOf_rank hrk hpp).2.1
          rcases alookup_isSome_of_key_mem hdk with ⟨ed, hed⟩
          refine ⟨d, { ed with status := 3 }, hddep, ?_, Or.inr (Or.inr rfl)⟩
          have hdn : d ≠ n := by
            intro hc
            rw [hc, isDesc_irrefl hrk] at hcase
            cases hcase
          rw [L d, if_neg hdn, hcase]
          simp only [if_true]
          rw [hed]
          rfl
    · rcases hinv.skipParent _ hq1m h3e with ⟨d, ed, hd, hed, hbad⟩
      exact ⟨d, ed, hd, hkeep d ed hed (Or.inr hbad), hbad⟩
  · intro p hp h1s
    rcases hdec p hp with ⟨_, h2e⟩ | ⟨_, _, e0, _, _, _, h2e⟩ | ⟨h1m, _, _⟩
    · rw [h2e] at h1s ⊢
      cases isAb with
      | true => simp at h1s
      | false => exact ⟨msg, tb, rfl, rfl, hP rfl⟩
    · rw [h2e] at h1s
      simp at h1s
    · exact hinv.excFail _ h1m h1s
  · intro p hp h2s
    rcases hdec p hp with ⟨_, h2e⟩ | ⟨_, _, e0, _, _, _, h2e⟩ | ⟨h1m, _, _⟩
    · rw [h2e] at h2s ⊢
      cases isAb with
      | true => exact ⟨msg, tb, rfl, rfl⟩
      | false => simp at h2s
    · rw [h2e] at h2s
      simp at h2s
    · exact hinv.excAbort _ h1m h2s
  · intro p hp hst3
    rcases hdec p hp with ⟨_, h2e⟩ | ⟨_, _, e0, hm0, hsa0, _, h2e⟩ | ⟨h1m, _, _⟩
    · rw [h2e] at hst3
      cases isAb <;> (rcases hst3 with h | h | h <;> simp at h)
    · rw [h2e]
      exact hinv.excNone (p.1, e0) hm0 (Or.inl hsa0)
    · exact hinv.excNone _ h1m hst3
  · rw [h1, hinv.doneCount]
    have hlist : (finishFailure s n isAb msg tb).threads = s.threads.map (fun p => (p.1,
        if p.1 = n then { p.2 with status := (if isAb then 2 else 1), exception := some (isAb, msg), stack_trace := some tb }
        else if isDesc sk p.1 n then { p.2 with status := 3 }
        else p.2)) := by
      apply threads_eq_map_of_lookup hkeys hinv.nodup
      intro m e0 hm0
      rw [L m]
      show _ = some (if m = n then { e0 with status := (if isAb then 2 else 1), exception := some (isAb, msg), stack_trace := some tb }
        else if isDesc sk m n then { e0 with status := 3 } else e0)
      by_cases hm : m = n
      · rw [hm] at hm0
        rw [he] at hm0
        injection hm0 with hh
        simp only [if_pos hm]
        rw [hh]
      · simp only [if_neg hm]
        cases hd : isDesc sk m n with
        | true =>
          simp only [if_true]
          rw [hm0]
          rfl
        | false =>
          simp only [Bool.false_eq_true, if_false]
          rw [hm0]
    have hkey1 : s.threads.countP (fun p => p.1 = n) = 1 :=
      countP_key_one hinv.nodup (List.mem_map_of_mem Prod.fst hmem)
    have hdisj2 : ∀ x ∈ s.threads,
        ¬((isDesc sk x.1 n) = true ∧ decide (x.2.status ≠ -1) = true) := by
      rintro x hx ⟨ha, hb⟩
      have := hdesc x hx ha
      exact (of_decide_eq_true hb) this
    have hsplit2 := countP_or_split s.threads (fun p => isDesc sk p.1 n)
      (fun p => decide (p.2.status ≠ -1)) hdisj2
    have hdisj1 : ∀ x ∈ s.threads,
        ¬(decide (x.1 = n) = true
          ∧ ((isDesc sk x.1 n) || decide (x.2.status ≠ -1)) = true) := by
      rintro x hx ⟨ha, hb⟩
      have hx1 : x.1 = n := of_decide_eq_true ha
      have hlx : alookup s.threads x.1 = some x.2 :=
        mem_alookup hinv.nodup (by rw [Prod.mk.eta]; exact hx)
      rw [hx1, he] at hlx
      injection hlx with hh
      rcases bor_elim hb with hc | hc
      · rw [hx1, isDesc_irrefl hrk] at hc
        cases hc
      · exact (of_decide_eq_true hc) (hh ▸ hstat)
    have hsplit1 := countP_or_split s.threads (fun p => decide (p.1 = n))
      (fun p => (isDesc sk p.1 n) || decide (p.2.status ≠ -1)) hdisj1
    have hcnt2 : (finishFailure s n isAb msg tb).threads.countP
          (fun p => p.2.status ≠ -1)
        = 1 + s.threads.countP (fun p => isDesc sk p.1 n)
          + s.threads.countP (fun p => p.2.status ≠ -1) := by
      rw [hlist, List.countP_map]
      have hcongr : s.threads.countP ((fun q => decide (q.2.status ≠ -1)) ∘
          (fun p => (p.1,
            if p.1 = n then { p.2 with status := (if isAb then 2 else 1), exception := some (isAb, msg), stack_trace := some tb }
            else if isDesc sk p.1 n then { p.2 with status := 3 }
            else p.2)))
          = s.threads.countP (fun p => decide (p.1 = n)
              || ((isDesc sk p.1 n) || decide (p.2.status ≠ -1))) := by
        apply List.countP_congr
        intro p _
        by_cases hpn : p.1 = n
        · cases isAb <;> simp [Function.comp, hpn]
        · cases hd : isDesc sk p.1 n with
          | true => simp [Function.comp, hpn, hd]
          | false => simp [Function.comp, hpn, hd]
      rw [hcongr, hsplit1, hsplit2, hkey1]
      omega
    rw [hcnt2]
    push_cast
    omega
  · rw [h4]
    constructor
    · intro hT
      by_cases hc : s.done_threads + 1
          + ((s.threads.countP (fun p => isDesc sk p.1 n)) : Int)
          = (s.num_threads : Int)
      · have hd0 : (0 : Int) ≤ s.done_threads := by
          rw [hinv.doneCount]
          exact Int.natCast_nonneg _
        have hcnt0 : (0 : Int)
            ≤ ((s.threads.countP (fun p => isDesc sk p.1 n)) : Int) :=
          Int.natCast_nonneg _
        refine ⟨by rw [h1, h2]; exact hc, ?_⟩
        rw [h2]
        omega
      · rw [if_neg hc] at hT
        exfalso
        rcases hinv.allDone.mp hT with ⟨hdn, hpos⟩
        have := done_lt_num_of_pending hinv he hstat
        omega
    · rintro ⟨h1c, _⟩
      rw [h1, h2] at h1c
      rw [if_pos h1c]
  · have hlen : (finishFailure s n isAb msg tb).threads.length = s.threads.length := by
      have hlm := congrArg List.length hkeys
      rwa [List.length_map, List.length_map] at hlm
    show (finishFailure s n isAb msg tb).threads.length
      ≤ (finishFailure s n isAb msg tb).num_threads
    rw [hlen, h2]
    exact hinv.numGe

/-! ## Invariant along executions, static facts, termination measure -/

theorem coordInv_step {P : String → Prop} {sk : List (String × Option String)}
    {rk : String → Nat} (hrk : RankOK sk rk) {s s2 : MTState}
    (hstep : Step P s s2) (hinv : CoordInv P sk s) : CoordInv P sk s2 := by
  cases hstep with
  | start n e he hdep hst => exact coordInv_preserve_start hinv he hdep hst
  | finishOk n e he hst hsa => exact coordInv_preserve_ok hrk hinv he hst hsa
  | finishErr n e isAb msg tb he hst hsa hP =>
    exact coordInv_preserve_err hrk hinv he hst hsa hP

theorem coordInv_reach {P : String → Prop} {sk : List (String × Option String)}
    {rk : String → Nat} (hrk : RankOK sk rk) {s0 s : MTState}
    (h0 : CoordInv P sk s0) (hr : Reach P s0 s) : CoordInv P sk s := by
  induction hr with
  | refl => exact h0
  | tail _ hbc ih => exact coordInv_step hrk hbc ih

theorem coordInv_reachable {P : String → Prop} {regs : List (String × Option String)}
    {rk : String → Nat} (hrk : RankOK (skel (mkState regs)) rk) {s : MTState}
    (hr : Reachable P regs s) : CoordInv P (skel (mkState regs)) s :=
  coordInv_reach hrk (coordInv_init P regs) hr

theorem abort_dependents_num :
    ∀ fuel n (s : MTState), (abort_dependents fuel n s).num_threads = s.num_threads := by
  intro fuel
  induction fuel with
  | zero => intro n s; rfl
  | succ fuel ih =>
    intro n s
    show ((dependentsOf s n).foldl
      (fun acc m => abort_dependents fuel m (incDone (setStatus acc m 3))) s).num_threads
      = s.num_threads
    generalize dependentsOf s n = l
    induction l generalizing s with
    | nil => rfl
    | cons c cs ihl =>
      rw [List.foldl_cons, ihl, ih]
      rfl

theorem thread_failure_num (s : MTState) (n : String) :
    (thread_failure s n).num_threads = s.num_threads := by
  unfold thread_failure
  rw [branch_num, abort_dependents_num]
  cases h : isAbortExcOf s n <;> rfl

theorem step_num {P : String → Prop} {s s2 : MTState} (h : Step P s s2) :
    s2.num_threads = s.num_threads := by
  cases h with
  | start n e _ _ _ => rfl
  | finishOk n e _ _ _ => exact (finishSuccess_spec s n).2.2.1
  | finishErr n e isAb msg tb _ _ _ _ => exact thread_failure_num _ n

theorem reach_num {P : String → Prop} {s0 s : MTState} (h : Reach P s0 s) :
    s.num_threads = s0.num_threads := by
  induction h with
  | refl => rfl
  | tail _ hbc ih => rw [step_num hbc, ih]

theorem countP_by_keys (l : List (String × TaskEntry))
    (hnd : (l.map Prod.fst).Nodup) (q : String × TaskEntry → Bool) :
    l.countP q = (l.map Prod.fst).countP (fun k =>
      match alookup l k with
      | some e0 => q (k, e0)
      | none => false) := by
  induction l with
  | nil => rfl
  | cons p t ih =>
    rw [List.map_cons, List.nodup_cons] at hnd
    rw [List.countP_cons, List.map_cons, List.countP_cons]
    have hhead : (match alookup (p :: t) p.1 with
        | some e0 => q (p.1, e0)
        | none => false) = q p := by
      rw [show alookup (p :: t) p.1 = some p.2 from by simp [alookup]]
    have htail : (t.map Prod.fst).countP (fun k =>
        match alookup (p :: t) k with
        | some e0 => q (k, e0)
        | none => false)
        = (t.map Prod.fst).countP (fun k =>
          match alookup t k with
          | some e0 => q (k, e0)
          | none => false) := by
      apply List.countP_congr
      intro k hk
      have hknp : p.1 ≠ k := by
        intro hc
        exact hnd.1 (hc ▸ hk)
      rw [show alookup (p :: t) k = alookup t k from by
        show (if p.1 = k then some p.2 else alookup t k) = alookup t k
        rw [if_neg hknp]]
    simp only [hhead, htail, ih hnd.2]

/-! ## Pointwise counting helpers for the termination measure -/

theorem countP_updThread_eq (s : MTState) (n : String) (f : TaskEntry → TaskEntry)
    (q : String × TaskEntry → Bool)
    (h : ∀ p : String × TaskEntry, q (p.1, f p.2) = q p) :
    (updThread s n f).threads.countP q = s.threads.countP q := by
  show (s.threads.map (fun p => if p.1 = n then (p.1, f p.2) else p)).countP q
      = s.threads.countP q
  rw [List.countP_map]
  apply List.countP_congr
  intro p hp
  show q (if p.1 = n then (p.1, f p.2) else p) = true ↔ q p = true
  by_cases hc : p.1 = n
  · rw [if_pos hc, h p]
  · rw [if_neg hc]

theorem countP_updThread_le (s : MTState) (n : String) (f : TaskEntry → TaskEntry)
    (q : String × TaskEntry → Bool)
    (h : ∀ p : String × TaskEntry, q (p.1, f p.2) = true → q p = true) :
    (updThread s n f).threads.countP q ≤ s.threads.countP q := by
  show (s.threads.map (fun p => if p.1 = n then (p.1, f p.2) else p)).countP q
      ≤ s.threads.countP q
  rw [List.countP_map]
  apply List.countP_mono_left
  intro p hp hq
  have hq2 : q (if p.1 = n then (p.1, f p.2) else p) = true := hq
  by_cases hc : p.1 = n
  · rw [if_pos hc] at hq2
    exact h p hq2
  · rw [if_neg hc] at hq2
    exact hq2

theorem foldl_start_countP_eq (l : List String) (s : MTState)
    (q : String × TaskEntry → Bool)
    (h : ∀ p : String × TaskEntry, q (p.1, { p.2 with started := true }) = q p) :
    ((l.foldl (fun acc c => startThread acc c) s).threads).countP q
      = s.threads.countP q := by
  induction l generalizing s with
  | nil => rfl
  | cons c l ih =>
    rw [List.foldl_cons, ih (startThread s c)]
    exact countP_updThread_eq s c _ q h

theorem foldl_start_countP_le (l : List String) (s : MTState)
    (q : String × TaskEntry → Bool)
    (h : ∀ p : String × TaskEntry, q (p.1, { p.2 with started := true }) = true → q p = true) :
    ((l.foldl (fun acc c => startThread acc c) s).threads).countP q
      ≤ s.threads.countP q := by
  induction l generalizing s with
  | nil => exact le_refl _
  | cons c l ih =>
    rw [List.foldl_cons]
    exact le_trans (ih (startThread s c)) (countP_updThread_le s c _ q h)

/-- Splitting a length into the pending and the terminal count. -/
theorem length_split_status (l : List (String × TaskEntry)) :
    l.length = l.countP (fun p => p.2.status = -1)
      + l.countP (fun p => p.2.status ≠ -1) := by
  rw [← countP_or_split l _ _ (by
    intro x hx hand
    rcases hand with ⟨h1, h2⟩
    exact (of_decide_eq_true h2) (of_decide_eq_true h1))]
  symm
  apply List.countP_eq_length.mpr
  intro p hp
  by_cases hc : p.2.status = -1 <;> simp [hc]

/-- Every scheduler event strictly decreases the termination measure. -/
theorem step_measure {P : String → Prop} {sk : List (String × Option String)}
    {rk : String → Nat} (hrk : RankOK sk rk) {s s2 : MTState}
    (hinv : CoordInv P sk s) (hstep : Step P s s2) :
    schedMeasure s2 < schedMeasure s := by
  cases hstep with
  | start n e he hdep hst =>
    have h1 : (startThread s n).threads.countP (fun p => decide (p.2.status = -1))
        = s.threads.countP (fun p => decide (p.2.status = -1)) :=
      countP_updThread_eq s n _ _ (fun p => rfl)
    have h2 : (startThread s n).threads.countP (fun p => decide (p.2.started = false)) + 1
        = s.threads.countP (fun p => decide (p.2.started = false)) := by
      have h3 := countP_updThread (fun p => decide (p.2.started = false))
        (fun e0 => { e0 with started := true }) hinv.nodup he
      simp only [hst, decide_True, if_true] at h3
      simpa using h3
    show 2 * (startThread s n).threads.countP (fun p => decide (p.2.status = -1))
        + (startThread s n).threads.countP (fun p => decide (p.2.started = false))
      < 2 * s.threads.countP (fun p => decide (p.2.status = -1))
        + s.threads.countP (fun p => decide (p.2.started = false))
    omega
  | finishOk n e he hst hsa =>
    have hthreads : (finishSuccess s n).threads
        = ((dependentsOf (incDone (setStatus s n 0)) n).foldl
            (fun acc c => startThread acc c) (incDone (setStatus s n 0))).threads := by
      simp only [finishSuccess, thread_success]
      rw [branch_threads]
    have h1 : (finishSuccess s n).threads.countP (fun p => decide (p.2.status = -1))
        = (setStatus s n 0).threads.countP (fun p => decide (p.2.status = -1)) := by
      rw [hthreads]
      exact foldl_start_countP_eq _ _ _ (fun p => rfl)
    have h2 : (setStatus s n 0).threads.countP (fun p => decide (p.2.status = -1)) + 1
        = s.threads.countP (fun p => decide (p.2.status = -1)) := by
      have h3 := countP_updThread (fun p => decide (p.2.status = -1))
        (fun e0 => { e0 with status := 0 }) hinv.nodup he
      simp only [hsa, decide_True, if_true] at h3
      simpa using h3
    have h4 : (finishSuccess s n).threads.countP (fun p => decide (p.2.started = false))
        ≤ s.threads.countP (fun p => decide (p.2.started = false)) := by
      rw [hthreads]
      refine le_trans (foldl_start_countP_le _ _ _ ?_) ?_
      · intro p hq
        simp at hq
      · exact le_of_eq (countP_updThread_eq s n (fun e0 => { e0 with status := 0 })
          (fun p => decide (p.2.started = false)) (fun p => rfl))
    show 2 * (finishSuccess s n).threads.countP (fun p => decide (p.2.status = -1))
        + (finishSuccess s n).threads.countP (fun p => decide (p.2.started = false))
      < 2 * s.threads.countP (fun p => decide (p.2.status = -1))
        + s.threads.countP (fun p => decide (p.2.started = false))
    omega
  | finishErr n e isAb msg tb he hst hsa hP =>
    have hdesc := desc_pending hrk hinv he hsa
    have hspec := finishFailure_spec hrk isAb msg tb hinv.hskel hinv.nodup he
      (fun p hp hd => (hdesc p hp hd).1)
    have hinv2 : CoordInv P sk (finishFailure s n isAb msg tb) :=
      coordInv_preserve_err hrk hinv he hst hsa hP
    have hlen : (finishFailure s n isAb msg tb).threads.length = s.threads.length := by
      have ha := congrArg List.length hspec.2.2.2.2.2
      have hb := congrArg List.length hinv.hskel
      simpa [skel] using ha.trans hb.symm
    have hsp1 := length_split_status s.threads
    have hsp2 := length_split_status (finishFailure s n isAb msg tb).threads
    have hd1 := hinv.doneCount
    have hd2 := hinv2.doneCount
    have hdd := hspec.2.1
    have hq2eq : (finishFailure s n isAb msg tb).threads.countP
          (fun p => decide (p.2.started = false))
        = s.threads.countP (fun p => decide (p.2.started = false)) := by
      have hkeys : (finishFailure s n isAb msg tb).threads.map Prod.fst
          = s.threads.map Prod.fst := by
        rw [keys_eq_skel, keys_eq_skel, hinv.hskel, hinv2.hskel]
      rw [countP_by_keys _ hinv2.nodup _, countP_by_keys _ hinv.nodup _, hkeys]
      apply List.countP_congr
      intro k hk
      have hl2 := hspec.1 k
      by_cases hkn : k = n
      · subst hkn
        rw [if_pos rfl] at hl2
        rw [hl2, he]
      · rw [if_neg hkn] at hl2
        by_cases hdk : isDesc sk k n
        · rw [if_pos hdk] at hl2
          rcases alookup_isSome_of_key_mem hk with ⟨ek, hek⟩
          rw [hl2, hek]
          rfl
        · rw [if_neg hdk] at hl2
          rw [hl2]
    show 2 * (finishFailure s n isAb msg tb).threads.countP (fun p => decide (p.2.status = -1))
        + (finishFailure s n isAb msg tb).threads.countP (fun p => decide (p.2.started = false))
      < 2 * s.threads.countP (fun p => decide (p.2.status = -1))
        + s.threads.countP (fun p => decide (p.2.started = false))
    omega

/-- In a stuck state satisfying the invariant, no task is left with
status `-1`: by rank induction, a pending task either can be started
(its dependency chain bottoms out) or its dependency is itself unfinished
with a smaller rank. -/
theorem stuck_terminal {P : String → Prop} {sk : List (String × Option String)}
    {rk : String → Nat} (hrk : RankOK sk rk) {s : MTState}
    (hinv : CoordInv P sk s) (hstuck : Stuck s) :
    ∀ p ∈ s.threads, p.2.status ≠ -1 := by
  suffices h : ∀ N, ∀ p ∈ s.threads, rk p.1 < N → p.2.status ≠ -1 by
    intro p hp
    exact h (rk p.1 + 1) p hp (Nat.lt_succ_self _)
  intro N
  induction N with
  | zero =>
    intro p _ h0
    omega
  | succ N ih =>
    intro p hp hlt hstat
    have hlp : alookup s.threads p.1 = some p.2 :=
      mem_alookup hinv.nodup (by rw [Prod.mk.eta]; exact hp)
    cases hstart : p.2.started with
    | true => exact hstuck _ (Step.finishOk s p.1 p.2 hlp hstart hstat)
    | false =>
      cases hdep : p.2.depends with
      | none => exact hstuck _ (Step.start s p.1 p.2 hlp hdep hstart)
      | some d =>
        have hpsk : (p.1, some d) ∈ sk := by
          rw [← hinv.hskel]
          have hmm : (p.1, p.2.depends) ∈ skel s :=
            List.mem_map_of_mem _ hp
          rw [hdep] at hmm
          exact hmm
        have hreg := hrk.1 _ hpsk d rfl
        rcases hreg.1 with ⟨qq, hqq, hqqd⟩
        have hdk : d ∈ s.threads.map Prod.fst := by
          rw [keys_eq_skel, hinv.hskel]
          rw [← hqqd]
          exact List.mem_map_of_mem Prod.fst hqq
        rcases alookup_isSome_of_key_mem hdk with ⟨ed, hed⟩
        have hmemd : (d, ed) ∈ s.threads := alookup_mem hed
        rcases hinv.statusRange (d, ed) hmemd with h0 | h0 | h0 | h0 | h0
        · exact ih (d, ed) hmemd (by
            show rk d < N
            have hr2 : rk d < rk p.1 := hreg.2
            omega) h0
        · have hch := hinv.succChildren (d, ed) hmemd h0 p hp hdep
          rw [hstart] at hch
          cases hch
        · have hch := hinv.badChildren (d, ed) hmemd (Or.inl h0) p hp hdep
          rw [hch] at hstat
          exact absurd hstat (by decide)
        · have hch := hinv.badChildren (d, ed) hmemd (Or.inr (Or.inl h0)) p hp hdep
          rw [hch] at hstat
          exact absurd hstat (by decide)
        · have hch := hinv.badChildren (d, ed) hmemd (Or.inr (Or.inr h0)) p hp hdep
          rw [hch] at hstat
          exact absurd hstat (by decide)

/-- Transitive cascade: every direct or transitive dependent of a task in a
non-succeeded terminal state is skipped. -/
theorem desc_bad {P : String → Prop} {sk : List (String × Option String)}
    {rk : String → Nat} (hrk : RankOK sk rk) {s : MTState}
    (hinv : CoordInv P sk s) {b : String} {eb : TaskEntry}
    (heb : alookup s.threads b = some eb)
    (hbad : eb.status = 1 ∨ eb.status = 2 ∨ eb.status = 3) :
    ∀ q ∈ s.threads, isDesc sk q.1 b = true → q.2.status = 3 := by
  suffices h : ∀ N, ∀ q ∈ s.threads, rk q.1 < N → isDesc sk q.1 b = true →
      q.2.status = 3 by
    intro q hq hd
    exact h (rk q.1 + 1) q hq (Nat.lt_succ_self _) hd
  intro N
  induction N with
  | zero =>
    intro q _ h0
    omega
  | succ N ih =>
    intro q hq hlt hd
    cases hpp : parentOf sk q.1 with
    | none =>
      rw [isDesc_none hpp] at hd
      cases hd
    | some d =>
      have hdep : q.2.depends = some d := by
        have hps := parentOf_skel s q.1
        rw [hinv.hskel, hpp] at hps
        have hlq : alookup s.threads q.1 = some q.2 :=
          mem_alookup hinv.nodup (by rw [Prod.mk.eta]; exact hq)
        rw [hlq] at hps
        exact hps.symm
      rw [isDesc_parent hrk hpp] at hd
      rcases bor_elim hd with hcase | hcase
      · have hdb : d = b := of_decide_eq_true hcase
        subst hdb
        exact hinv.badChildren (d, eb) (alookup_mem heb) hbad q hq hdep
      · have hdr := (parentOf_rank hrk hpp).1
        have hdk : d ∈ s.threads.map Prod.fst := by
          rw [keys_eq_skel, hinv.hskel]
          exact (parentOf_rank hrk hpp).2.1
        rcases alookup_isSome_of_key_mem hdk with ⟨ed, hed⟩
        have hmemd : (d, ed) ∈ s.threads := alookup_mem hed
        have hd3 : ed.status = 3 := ih (d, ed) hmemd (by show rk d < N; omega) hcase
        exact hinv.badChildren (d, ed) hmemd (Or.inr (Or.inr hd3)) q hq hdep

/-- `add_thread` with a fresh name appends: keys and length grow by one. -/
theorem add_thread_fresh_keys (s : MTState) (r : String × Option String)
    (h : ¬ r.1 ∈ s.threads.map Prod.fst) :
    (add_thread s r.1 r.2).threads.map Prod.fst = s.threads.map Prod.fst ++ [r.1]
    ∧ (add_thread s r.1 r.2).threads.length = s.threads.length + 1 := by
  have hany : s.threads.any (fun p => p.1 = r.1) = false := by
    apply List.any_eq_false.mpr
    intro p hp hc
    apply h
    rw [← of_decide_eq_true hc]
    exact List.mem_map_of_mem Prod.fst hp
  constructor
  · show (dictInsert s.threads r.1 (newThread r.2)).map Prod.fst = _
    rw [dictInsert_keys, hany]
    simp
  · show (dictInsert s.threads r.1 (newThread r.2)).length = _
    rw [dictInsert_length, hany]
    simp

theorem foldl_add_len_eq (regs : List (String × Option String)) :
    ∀ (s : MTState), (regs.map Prod.fst).Nodup →
    (∀ r ∈ regs, ¬ r.1 ∈ s.threads.map Prod.fst) →
    (regs.foldl (fun s r => add_thread s r.1 r.2) s).threads.length
      = s.threads.length + regs.length := by
  induction regs with
  | nil =>
    intro s _ _
    simp
  | cons r regs ih =>
    intro s hnd hfr
    rw [List.map_cons, List.nodup_cons] at hnd
    rw [List.foldl_cons]
    have hfree : ¬ r.1 ∈ s.threads.map Prod.fst := hfr r (List.mem_cons_self _ _)
    rcases add_thread_fresh_keys s r hfree with ⟨hk, hl⟩
    have hfr2 : ∀ r2 ∈ regs, ¬ r2.1 ∈ (add_thread s r.1 r.2).threads.map Prod.fst := by
      intro r2 hr2 hc
      rw [hk, List.mem_append] at hc
      rcases hc with hc | hc
      · exact hfr r2 (List.mem_cons_of_mem _ hr2) hc
      · rw [List.mem_singleton] at hc
        apply hnd.1
        rw [← hc]
        exact List.mem_map_of_mem Prod.fst hr2
    rw [ih _ hnd.2 hfr2, hl, List.length_cons]
    omega

/-- With pairwise-distinct names, registration stores exactly one entry per
name. -/
theorem mkState_len (regs : List (String × Option String))
    (hnd : (regs.map Prod.fst).Nodup) :
    (mkState regs).threads.length = regs.length := by
  have h := foldl_add_len_eq regs MTinit hnd (by intro r _ hc; simp [MTinit] at hc)
  simpa [mkState, MTinit] using h

/-! ## Helpers for the concrete claim instances -/

/-- Overwriting dictionary insertion at a present key yields the new value. -/
theorem alookup_overwrite (l : List (String × TaskEntry)) (n : String) (e : TaskEntry)
    (h : n ∈ l.map Prod.fst) :
    alookup (l.map (fun p => if p.1 = n then (p.1, e) else p)) n = some e := by
  induction l with
  | nil => cases h
  | cons p t ih =>
    by_cases hp : p.1 = n
    · simp [alookup, hp]
    · have h2 : n ∈ t.map Prod.fst := by
        rw [List.map_cons] at h
        rcases List.mem_cons.mp h with hc | hc
        · exact absurd hc.symm hp
        · exact hc
      simp [alookup, hp, ih h2]

/-- The one-task skeleton is a forest. -/
theorem rankOK_single : RankOK [("a", none)] (fun _ => 0) := by
  constructor
  · intro p hp d hd
    rw [List.mem_singleton] at hp
    subst hp
    exact Option.noConfusion hd
  · intro p hp
    rw [List.mem_singleton] at hp
    subst hp
    decide

/-- The two-task chain `b → a` is a forest. -/
theorem rankOK_pair : RankOK [("a", none), ("b", some "a")]
    (fun k => if k = "b" then 1 else 0) := by
  constructor
  · intro p hp d hd
    rcases List.mem_cons.mp hp with hc | hc
    · subst hc
      exact Option.noConfusion hd
    · rw [List.mem_singleton] at hc
      subst hc
      have hd2 : some "a" = some d := hd
      injection hd2 with hd3
      subst hd3
      exact ⟨⟨("a", none), List.mem_cons_self _ _, rfl⟩, by decide⟩
  · intro p hp
    rcases List.mem_cons.mp hp with hc | hc
    · subst hc
      decide
    · rw [List.mem_singleton] at hc
      subst hc
      decide

/-- The three-task chain `d → b → a` is a forest. -/
theorem rankOK_chain3 : RankOK [("a", none), ("b", some "a"), ("d", some "b")]
    (fun k => if k = "b" then 1 else if k = "d" then 2 else 0) := by
  constructor
  · intro p hp d hd
    rcases List.mem_cons.mp hp with hc | hc
    · subst hc
      exact Option.noConfusion hd
    · rcases List.mem_cons.mp hc with hc2 | hc2
      · subst hc2
        have hd2 : some "a" = some d := hd
        injection hd2 with hd3
        subst hd3
        exact ⟨⟨("a", none), List.mem_cons_self _ _, rfl⟩, by decide⟩
      · rw [List.mem_singleton] at hc2
        subst hc2
        have hd2 : some "b" = some d := hd
        injection hd2 with hd3
        subst hd3
        exact ⟨⟨("b", some "a"), List.mem_cons_of_mem _ (List.mem_cons_self _ _), rfl⟩,
          by decide⟩
  · intro p hp
    rcases List.mem_cons.mp hp with hc | hc
    · subst hc
      decide
    · rcases List.mem_cons.mp hc with hc2 | hc2
      · subst hc2
        decide
      · rw [List.mem_singleton] at hc2
        subst hc2
        decide

/-! ## The claims -/

/-- C1: when a task completes successfully, `thread_success` — the source runs
it under the single global lock — increments the done-counter, starts every
registered dependent of the task, leaves the global abort flag unchanged,
and releases the blocking wait of `run()` exactly when the incremented
counter equals the number of registered tasks.  Corrected against the spec:
the dependents are launched unconditionally — the abort flag is never
consulted, so even with `abortRequested` set the dependents transition to
Running (started, status still `-1`), not to `SkippedDueToDependencyFailure`
(see `claim_C1_counterexample` for a reachable run showing this). -/
theorem claim_C1 (s : MTState) (n : String) :
    (thread_success s n).done_threads = s.done_threads + 1
    ∧ (∀ m e, m ∈ dependentsOf s n → alookup s.threads m = some e →
        alookup (thread_success s n).threads m = some { e with started := true })
    ∧ (thread_success s n).abort = s.abort
    ∧ ((thread_success s n).all_done
        = if s.done_threads + 1 = (s.num_threads : Int) then true else s.all_done) := by
  rcases thread_success_spec s n with ⟨ha, h1, h2, h3, h4, h5⟩
  refine ⟨h1, ?_, h3, h4⟩
  intro m e hm he
  rw [ha m, if_pos hm, he]
  rfl

/-- C5: in every reachable state, a task that has been started and has a
declared dependency has that dependency stored with terminal status `0`
(`Succeeded`): no task transitions from Pending to Running before its
dependency succeeded.  Confirmed. -/
theorem claim_C5 (P : String → Prop) (regs : List (String × Option String))
    (rk : String → Nat) (hrk : RankOK (skel (mkState regs)) rk)
    {s : MTState} (h : Reachable P regs s) {n : String} {e : TaskEntry} {d : String}
    (he : alookup s.threads n = some e) (hst : e.started = true)
    (hdep : e.depends = some d) :
    ∃ ed, alookup s.threads d = some ed ∧ ed.status = 0 := by
  have hinv := coordInv_reachable hrk h
  exact hinv.startedDep (n, e) (alookup_mem he) hst d hdep

/-- C6: `all_success` returns true iff every registered task's status is `0`
(`Succeeded`), and returns false whenever some task is Failed (`1`),
Aborted (`2`) or Skipped (`3`).  Confirmed. -/
theorem claim_C6 (s : MTState) :
    (all_success s = true ↔ ∀ p ∈ s.threads, p.2.status = 0)
    ∧ (∀ p ∈ s.threads,
        (p.2.status = 1 ∨ p.2.status = 2 ∨ p.2.status = 3) → all_success s = false) := by
  have hiff : all_success s = true ↔ ∀ p ∈ s.threads, p.2.status = 0 := by
    unfold all_success
    rw [List.all_eq_true]
    constructor
    · intro hh p hp
      exact of_decide_eq_true (hh p hp)
    · intro hh p hp
      exact decide_eq_true (hh p hp)
  refine ⟨hiff, ?_⟩
  intro p hp hbad
  cases hq : all_success s
  · rfl
  · exfalso
    have h0 := (hiff.mp hq) p hp
    rcases hbad with hb | hb | hb <;> (rw [h0] at hb; exact absurd hb (by decide))

/-- C8: in every reachable state, a task's captured exception and stack
trace are populated **iff** its status is `1` (Failed) or `2` (Aborted).
Corrected against the spec, which says they are populated only when the
state is Failed: a task that ends Aborted also carries the captured
`ThreadAbortException` and its formatted traceback, because
`DemoGridThread.run` records them before `thread_failure` reclassifies the
status to `2` (see `claim_C8_counterexample`). -/
theorem claim_C8 (P : String → Prop) (regs : List (String × Option String))
    (rk : String → Nat) (hrk : RankOK (skel (mkState regs)) rk)
    {s : MTState} (h : Reachable P regs s) :
    ∀ p ∈ s.threads,
      ((p.2.exception ≠ none ∨ p.2.stack_trace ≠ none)
        ↔ (p.2.status = 1 ∨ p.2.status = 2)) := by
  have hinv := coordInv_reachable hrk h
  intro p hp
  constructor
  · intro hne
    rcases hinv.statusRange p hp with h0 | h0 | h0 | h0 | h0
    · rcases hinv.excNone p hp (Or.inl h0) with ⟨h1, h2⟩
      rcases hne with hne | hne
      · exact absurd h1 hne
      · exact absurd h2 hne
    · rcases hinv.excNone p hp (Or.inr (Or.inl h0)) with ⟨h1, h2⟩
      rcases hne with hne | hne
      · exact absurd h1 hne
      · exact absurd h2 hne
    · exact Or.inl h0
    · exact Or.inr h0
    · rcases hinv.excNone p hp (Or.inr (Or.inr h0)) with ⟨h1, h2⟩
      rcases hne with hne | hne
      · exact absurd h1 hne
      · exact absurd h2 hne
  · intro h12
    rcases h12 with h1 | h1
    · rcases hinv.excFail p hp h1 with ⟨m, t, hm, ht, hP⟩
      refine Or.inl ?_
      rw [hm]
      exact fun hc => Option.noConfusion hc
    · rcases hinv.excAbort p hp h1 with ⟨m, t, hm, ht⟩
      refine Or.inl ?_
      rw [hm]
      exact fun hc => Option.noConfusion hc

/-- C9: in every reachable state of a run over registered tasks, the
done-counter satisfies `0 ≤ done_threads ≤ len(tasks)`: skipped tasks are
counted at most once each, and the counter never exceeds the number of
registrations.  Confirmed. -/
theorem claim_C9 (P : String → Prop) (regs : List (String × Option String))
    (rk : String → Nat) (hrk : RankOK (skel (mkState regs)) rk)
    {s : MTState} (h : Reachable P regs s) :
    0 ≤ s.done_threads ∧ s.done_threads ≤ (regs.length : Int)
      ∧ s.num_threads = regs.length := by
  have hinv := coordInv_reachable hrk h
  have hnum : s.num_threads = regs.length := by
    rw [reach_num h]
    exact mkState_num regs
  have hle : s.threads.countP (fun p => p.2.status ≠ -1) ≤ s.threads.length :=
    List.countP_le_length _
  have hng := hinv.numGe
  have hd := hinv.doneCount
  refine ⟨?_, ?_, hnum⟩ <;> omega

/-- C3: in every reachable state, once a task `b` is in a non-succeeded
terminal state (`1` Failed or `2` Aborted), every registered task that
directly or transitively depends on `b` has status `3`
(`SkippedDueToDependencyFailure`) and was never started (so it is neither
Succeeded nor Running), and each such skipped task is counted toward the
done-counter (the counter equals the number of tasks in a terminal state).
Confirmed — the cascade follows dependency edges transitively. -/
theorem claim_C3 (P : String → Prop) (regs : List (String × Option String))
    (rk : String → Nat) (hrk : RankOK (skel (mkState regs)) rk)
    {s : MTState} (h : Reachable P regs s) {b : String} {eb : TaskEntry}
    (heb : alookup s.threads b = some eb)
    (hbad : eb.status = 1 ∨ eb.status = 2) :
    (∀ q ∈ s.threads, isDesc (skel (mkState regs)) q.1 b = true →
        q.2.status = 3 ∧ q.2.started = false)
    ∧ s.done_threads = ((s.threads.countP (fun p => p.2.status ≠ -1)) : Int) := by
  have hinv := coordInv_reachable hrk h
  refine ⟨?_, hinv.doneCount⟩
  intro q hq hd
  have h3 := desc_bad hrk hinv heb
    (hbad.elim (fun hx => Or.inl hx) (fun hx => Or.inr (Or.inl hx))) q hq hd
  exact ⟨h3, hinv.skipNotStarted q hq h3⟩

/-- C4: a running task that finishes with an exception runs the failure
path: with the distinguished abort-acknowledged outcome (`isAb = true`) its
final status is `2` (Aborted) and the global abort flag is unchanged; with
any other failure (`isAb = false`) its final status is `1` (Failed) and the
abort flag is set (idempotently).  In both cases the error description and
traceback are captured on the task, the done-counter increments once for
the task plus once per transitive dependent, and every transitive dependent
is cascaded to status `3`.  Confirmed. -/
theorem claim_C4 (P : String → Prop) (regs : List (String × Option String))
    (rk : String → Nat) (hrk : RankOK (skel (mkState regs)) rk)
    {s : MTState} (h : Reachable P regs s) {n : String} {e : TaskEntry}
    (isAb : Bool) (msg tb : String)
    (he : alookup s.threads n = some e) (hrun : e.started = true)
    (hpend : e.status = -1) :
    alookup (finishFailure s n isAb msg tb).threads n
      = some { e with status := (if isAb then 2 else 1), exception := some (isAb, msg), stack_trace := some tb }
    ∧ (finishFailure s n isAb msg tb).done_threads
        = s.done_threads + 1
          + ((s.threads.countP (fun p => isDesc (skel (mkState regs)) p.1 n)) : Int)
    ∧ (finishFailure s n isAb msg tb).abort = (if isAb then s.abort else true)
    ∧ (∀ m, isDesc (skel (mkState regs)) m n = true →
        alookup (finishFailure s n isAb msg tb).threads m
          = (alookup s.threads m).map (fun e2 => { e2 with status := 3 })) := by
  have hinv := coordInv_reachable hrk h
  have hdesc := desc_pending hrk hinv he hpend
  have hspec := finishFailure_spec hrk isAb msg tb hinv.hskel hinv.nodup he
    (fun p hp hd => (hdesc p hp hd).1)
  refine ⟨?_, hspec.2.1, hspec.2.2.2.1, ?_⟩
  · have h1 := hspec.1 n
    rw [if_pos rfl] at h1
    exact h1
  · intro m hd
    have hmn : ¬ m = n := by
      intro hc
      rw [hc] at hd
      rw [isDesc_irrefl hrk n] at hd
      cases hd
    have h1 := hspec.1 m
    rw [if_neg hmn, if_pos hd] at h1
    exact h1

/-- C7: in every reachable state of a run in which genuine failure messages
are non-empty (the stated contract of the task bodies), `get_exceptions`
returns a mapping whose key set is exactly the set of task names with
status `1` (Failed), each mapped to its captured (exception, stack trace)
pair, with a non-empty message and a present traceback; tasks with status
`2` (Aborted) or `3` (Skipped) are never included.  Confirmed. -/
theorem claim_C7 (regs : List (String × Option String)) (rk : String → Nat)
    (hrk : RankOK (skel (mkState regs)) rk) {s : MTState}
    (h : Reachable (fun m => m ≠ "") regs s) :
    (∀ n v, (n, v) ∈ get_exceptions s
        ↔ ∃ e, alookup s.threads n = some e ∧ e.status = 1
            ∧ v = (e.exception, e.stack_trace))
    ∧ (∀ n exc tbv, (n, (exc, tbv)) ∈ get_exceptions s →
        ∃ m t, exc = some (false, m) ∧ m ≠ "" ∧ tbv = some t) := by
  have hinv := coordInv_reachable hrk h
  have hmem : ∀ n v, (n, v) ∈ get_exceptions s
      ↔ ∃ e, (n, e) ∈ s.threads ∧ e.status = 1 ∧ v = (e.exception, e.stack_trace) := by
    intro n v
    unfold get_exceptions
    constructor
    · intro hh
      rcases List.mem_map.mp hh with ⟨p, hpf, hpe⟩
      rcases List.mem_filter.mp hpf with ⟨hpl, hps⟩
      injection hpe with h1 h2
      refine ⟨p.2, ?_, of_decide_eq_true hps, h2.symm⟩
      rw [← h1, Prod.mk.eta]
      exact hpl
    · rintro ⟨e, hel, hes, hv⟩
      apply List.mem_map.mpr
      refine ⟨(n, e), List.mem_filter.mpr ⟨hel, decide_eq_true hes⟩, ?_⟩
      rw [hv]
  constructor
  · intro n v
    rw [hmem n v]
    constructor
    · rintro ⟨e, hel, hes, hv⟩
      exact ⟨e, mem_alookup hinv.nodup hel, hes, hv⟩
    · rintro ⟨e, hel, hes, hv⟩
      exact ⟨e, alookup_mem hel, hes, hv⟩
  · intro n exc tbv hh
    rcases (hmem n (exc, tbv)).mp hh with ⟨e, hel, hes, hv⟩
    rcases hinv.excFail (n, e) hel hes with ⟨m, t, hm1, hm2, hm3⟩
    injection hv with hv1 hv2
    exact ⟨m, t, by rw [hv1, hm1], hm3, by rw [hv2, hm2]⟩

/-- C2: for a registration list with pairwise-distinct names whose
dependency graph is a single-parent forest and at least one task, the run
terminates: every scheduler event strictly decreases the termination
measure (so no infinite execution exists), the blocking wait of `run()` is
released exactly when the done-counter equals the number `N` of registered
tasks, and in every settled (stuck) reachable state the wait has been
released, the counter equals `N`, exactly `N` tasks are stored, and every
task is in exactly one terminal state — none remains Pending or Running.
Corrected against the spec on one point: the claim "including N = 0" fails —
with zero registered tasks no event is possible and the `all_done` event is
never set, so `run()` blocks forever (see `claim_C2_counterexample`); the
property holds for N ≥ 1. -/
theorem claim_C2 (P : String → Prop) (regs : List (String × Option String))
    (rk : String → Nat) (hnd : (regs.map Prod.fst).Nodup)
    (hrk : RankOK (skel (mkState regs)) rk) (hne : regs ≠ []) :
    (∀ s s2, Reachable P regs s → Step P s s2 → schedMeasure s2 < schedMeasure s)
    ∧ (∀ s, Reachable P regs s →
        (s.all_done = true ↔ s.done_threads = (regs.length : Int)))
    ∧ (∀ s, Reachable P regs s → Stuck s →
        s.all_done = true ∧ s.done_threads = (regs.length : Int)
        ∧ s.threads.length = regs.length
        ∧ ∀ p ∈ s.threads,
            p.2.status = 0 ∨ p.2.status = 1 ∨ p.2.status = 2 ∨ p.2.status = 3) := by
  have hnum : ∀ s, Reachable P regs s → s.num_threads = regs.length := by
    intro s h
    rw [reach_num h]
    exact mkState_num regs
  have hpos : 0 < regs.length := List.length_pos.mpr hne
  have hiff : ∀ s, Reachable P regs s →
      (s.all_done = true ↔ s.done_threads = (regs.length : Int)) := by
    intro s h
    have hinv := coordInv_reachable hrk h
    rw [hinv.allDone, hnum s h]
    exact ⟨fun hh => hh.1, fun hh => ⟨hh, hpos⟩⟩
  refine ⟨?_, hiff, ?_⟩
  · intro s s2 h hstep
    exact step_measure hrk (coordInv_reachable hrk h) hstep
  · intro s h hstuck
    have hinv := coordInv_reachable hrk h
    have hterm := stuck_terminal hrk hinv hstuck
    have hlen : s.threads.length = regs.length := by
      have h1 := congrArg List.length hinv.hskel
      have h2 : s.threads.length = (mkState regs).threads.length := by
        simpa [skel] using h1
      rw [h2, mkState_len regs hnd]
    have hcnt : s.threads.countP (fun p => p.2.status ≠ -1) = s.threads.length :=
      List.countP_eq_length.mpr (fun p hp => decide_eq_true (hterm p hp))
    have hdone : s.done_threads = (regs.length : Int) := by
      rw [hinv.doneCount, hcnt, hlen]
    refine ⟨(hiff s h).mpr hdone, hdone, hlen, ?_⟩
    intro p hp
    rcases hinv.statusRange p hp with h0 | h0 | h0 | h0 | h0
    · exact absurd h0 (hterm p hp)
    · exact Or.inl h0
    · exact Or.inr (Or.inl h0)
    · exact Or.inr (Or.inr (Or.inl h0))
    · exact Or.inr (Or.inr (Or.inr h0))

/-- C10: registering a task under an already-used name is not rejected:
`add_thread` silently replaces the stored entry (the key set is unchanged
and the name now maps to the fresh entry) while still incrementing
`num_threads`; consequently, for a registration list containing a duplicate
name, the number of stored tasks is strictly below `num_threads`, and in
every reachable state of the run the `all_done` event is false — the
terminal condition `done_threads == num_threads` can never be met and
`run()` never returns.  Confirmed. -/
theorem claim_C10 (P : String → Prop) (regs : List (String × Option String))
    (rk : String → Nat) (hrk : RankOK (skel (mkState regs)) rk)
    (hdup : ¬ (regs.map Prod.fst).Nodup) :
    (∀ (s : MTState) (name : String) (dep : Option String),
        name ∈ s.threads.map Prod.fst →
        (add_thread s name dep).threads.map Prod.fst = s.threads.map Prod.fst
        ∧ alookup (add_thread s name dep).threads name = some (newThread dep)
        ∧ (add_thread s name dep).num_threads = s.num_threads + 1)
    ∧ (mkState regs).threads.length < (mkState regs).num_threads
    ∧ (∀ s, Reachable P regs s → s.all_done = false) := by
  refine ⟨?_, ?_, ?_⟩
  · intro s name dep hmem
    have hany : s.threads.any (fun p => p.1 = name) = true := by
      rcases List.mem_map.mp hmem with ⟨p, hpl, hpn⟩
      exact List.any_eq_true.mpr ⟨p, hpl, decide_eq_true hpn⟩
    refine ⟨?_, ?_, rfl⟩
    · show (dictInsert s.threads name (newThread dep)).map Prod.fst = _
      rw [dictInsert_keys, hany]
      simp
    · show alookup (dictInsert s.threads name (newThread dep)) name = _
      unfold dictInsert
      rw [hany]
      simp only [if_true]
      exact alookup_overwrite s.threads name (newThread dep) hmem
  · rw [mkState_num regs]
    exact mkState_len_lt regs hdup
  · intro s h
    have hinv := coordInv_reachable hrk h
    cases hq : s.all_done
    · rfl
    · exfalso
      rcases hinv.allDone.mp hq with ⟨hde, hposn⟩
      have hd := hinv.doneCount
      have hle : s.threads.countP (fun p => p.2.status ≠ -1) ≤ s.threads.length :=
        List.countP_le_length _
      have hlen : s.threads.length = (mkState regs).threads.length := by
        have h1 := congrArg List.length hinv.hskel
        simpa [skel] using h1
      have hlt := mkState_len_lt regs hdup
      have hnum : s.num_threads = regs.length := by
        rw [reach_num h]
        exact mkState_num regs
      have hnum2 : (mkState regs).num_threads = regs.length := mkState_num regs
      omega

/-! ## Witnesses and counterexamples for the claims -/

/-- C1 witness: a concrete two-task state with the abort flag set; the
dependent of the finished task is started nonetheless. -/
theorem claim_C1_witness :
    alookup (thread_success ⟨[("a", ⟨none, true, -1, none, none⟩), ("b", ⟨some "a", false, -1, none, none⟩)], 2, 0, true, false⟩ "a").threads "b"
      = some ⟨some "a", true, -1, none, none⟩ :=
  (claim_C1 ⟨[("a", ⟨none, true, -1, none, none⟩), ("b", ⟨some "a", false, -1, none, none⟩)], 2, 0, true, false⟩ "a").2.1
    "b" ⟨some "a", false, -1, none, none⟩ (by decide) (by decide)

/-- C1 counterexample: a reachable run in which a genuine failure has set
the abort flag, and a later success still launches its dependent: in the
final state the abort flag is set while task `b` is Running
(`started = true`, status `-1`) — it was not marked
`SkippedDueToDependencyFailure`, contradicting the spec's claim for the
abort-set case. -/
theorem claim_C1_counterexample :
    Reachable (fun _ => True) [("c", none), ("a", none), ("b", some "a")] (finishSuccess (startThread (finishFailure (startThread (runStart (mkState [("c", none), ("a", none), ("b", some "a")])) "c") "c" false "boom" "tb") "a") "a")
    ∧ (finishFailure (startThread (runStart (mkState [("c", none), ("a", none), ("b", some "a")])) "c") "c" false "boom" "tb").abort = true
    ∧ alookup (finishSuccess (startThread (finishFailure (startThread (runStart (mkState [("c", none), ("a", none), ("b", some "a")])) "c") "c" false "boom" "tb") "a") "a").threads "b" = some ⟨some "a", true, -1, none, none⟩
    ∧ (finishSuccess (startThread (finishFailure (startThread (runStart (mkState [("c", none), ("a", none), ("b", some "a")])) "c") "c" false "boom" "tb") "a") "a").abort = true := by
  refine ⟨?_, by decide, by decide, by decide⟩
  exact Relation.ReflTransGen.tail (Relation.ReflTransGen.tail
    (Relation.ReflTransGen.tail (Relation.ReflTransGen.tail Relation.ReflTransGen.refl
      (Step.start _ "c" ⟨none, false, -1, none, none⟩ (by decide) rfl rfl))
      (Step.finishErr _ "c" ⟨none, true, -1, none, none⟩ false "boom" "tb" (by decide) rfl rfl
        (fun _ => trivial)))
    (Step.start _ "a" ⟨none, false, -1, none, none⟩ (by decide) rfl rfl))
    (Step.finishOk _ "a" ⟨none, true, -1, none, none⟩ (by decide) rfl rfl)

/-- C2 witness: with one registered task, the run start / finish execution
settles and the `all_done` event is set. -/
theorem claim_C2_witness :
    (finishSuccess (startThread (runStart (mkState [("a", none)])) "a") "a").all_done = true := by
  have hreach : Reachable (fun _ => True) [("a", none)] (finishSuccess (startThread (runStart (mkState [("a", none)])) "a") "a") :=
    Relation.ReflTransGen.tail
      (Relation.ReflTransGen.tail Relation.ReflTransGen.refl
        (Step.start _ "a" ⟨none, false, -1, none, none⟩ (by decide) rfl rfl))
      (Step.finishOk _ "a" ⟨none, true, -1, none, none⟩ (by decide) rfl rfl)
  have hstuck : Stuck (finishSuccess (startThread (runStart (mkState [("a", none)])) "a") "a") := by
    intro s' hstep
    cases hstep with
    | start n e he hdep hst =>
      have hm : (n, e) ∈ [("a", (⟨none, true, 0, none, none⟩ : TaskEntry))] :=
        alookup_mem he
      rw [List.mem_singleton] at hm
      injection hm with hm1 hm2
      subst hm2
      exact absurd hst (by decide)
    | finishOk n e he hst hsa =>
      have hm : (n, e) ∈ [("a", (⟨none, true, 0, none, none⟩ : TaskEntry))] :=
        alookup_mem he
      rw [List.mem_singleton] at hm
      injection hm with hm1 hm2
      subst hm2
      exact absurd hsa (by decide)
    | finishErr n e isAb msg tb he hst hsa hP =>
      have hm : (n, e) ∈ [("a", (⟨none, true, 0, none, none⟩ : TaskEntry))] :=
        alookup_mem he
      rw [List.mem_singleton] at hm
      injection hm with hm1 hm2
      subst hm2
      exact absurd hsa (by decide)
  exact ((claim_C2 (fun _ => True) [("a", none)] (fun _ => 0) (by decide) rankOK_single
    (by decide)).2.2 _ hreach hstuck).1

/-- C2 counterexample: with zero registered tasks the initial state is
already stuck — no scheduler event is possible — yet `all_done` is false
even though the done-counter equals `num_threads`: the wait in `run()` is
never released, refuting the spec's "including N = 0". -/
theorem claim_C2_counterexample :
    Stuck (runStart (mkState []))
    ∧ (runStart (mkState [])).all_done = false
    ∧ (runStart (mkState [])).done_threads = ((runStart (mkState [])).num_threads : Int) := by
  refine ⟨?_, rfl, by decide⟩
  intro s' hstep
  cases hstep with
  | start n e he hdep hst =>
    exact Option.noConfusion (show (none : Option TaskEntry) = some e from he)
  | finishOk n e he hst hsa =>
    exact Option.noConfusion (show (none : Option TaskEntry) = some e from he)
  | finishErr n e isAb msg tb he hst hsa hP =>
    exact Option.noConfusion (show (none : Option TaskEntry) = some e from he)

/-- C3 witness: in the chain `d → b → a`, after `a` fails the transitive
dependent `d` is skipped and was never started. -/
theorem claim_C3_witness :
    ("d", (⟨some "b", false, 3, none, none⟩ : TaskEntry)).2.status = 3
    ∧ ("d", (⟨some "b", false, 3, none, none⟩ : TaskEntry)).2.started = false := by
  have hreach : Reachable (fun _ => True) [("a", none), ("b", some "a"), ("d", some "b")] (finishFailure (startThread (runStart (mkState [("a", none), ("b", some "a"), ("d", some "b")])) "a") "a" false "boom" "tb") :=
    Relation.ReflTransGen.tail
      (Relation.ReflTransGen.tail Relation.ReflTransGen.refl
        (Step.start _ "a" ⟨none, false, -1, none, none⟩ (by decide) rfl rfl))
      (Step.finishErr _ "a" ⟨none, true, -1, none, none⟩ false "boom" "tb" (by decide) rfl rfl
        (fun _ => trivial))
  have happ := @claim_C3 (fun _ => True) [("a", none), ("b", some "a"), ("d", some "b")] (fun k => if k = "b" then 1 else if k = "d" then 2 else 0) rankOK_chain3
    (finishFailure (startThread (runStart (mkState [("a", none), ("b", some "a"), ("d", some "b")])) "a") "a" false "boom" "tb") hreach "a" ⟨none, true, 1, some (false, "boom"), some "tb"⟩
    (by decide) (Or.inl rfl)
  exact happ.1 ("d", ⟨some "b", false, 3, none, none⟩) (by decide) (by decide)

/-- C4 witness: with `b` depending on `a` and `a` running, a genuine
failure of `a` records status `1` with the captured message and trace,
sets the abort flag, and marks the dependent entry skipped. -/
theorem claim_C4_witness :
    alookup (finishFailure (startThread (runStart (mkState [("a", none), ("b", some "a")])) "a") "a" false "boom" "tb").threads "a"
      = some ⟨none, true, 1, some (false, "boom"), some "tb"⟩
    ∧ (finishFailure (startThread (runStart (mkState [("a", none), ("b", some "a")])) "a") "a" false "boom" "tb").abort = true
    ∧ alookup (finishFailure (startThread (runStart (mkState [("a", none), ("b", some "a")])) "a") "a" false "boom" "tb").threads "b"
      = (alookup (startThread (runStart (mkState [("a", none), ("b", some "a")])) "a").threads "b").map (fun e2 => { e2 with status := 3 }) := by
  have hreach : Reachable (fun _ => True) [("a", none), ("b", some "a")] (startThread (runStart (mkState [("a", none), ("b", some "a")])) "a") :=
    Relation.ReflTransGen.tail Relation.ReflTransGen.refl
      (Step.start _ "a" ⟨none, false, -1, none, none⟩ (by decide) rfl rfl)
  have happ := @claim_C4 (fun _ => True) [("a", none), ("b", some "a")] (fun k => if k = "b" then 1 else 0) rankOK_pair
    (startThread (runStart (mkState [("a", none), ("b", some "a")])) "a") hreach "a" ⟨none, true, -1, none, none⟩ false "boom" "tb"
    (by decide) rfl rfl
  exact ⟨happ.1, happ.2.2.1, happ.2.2.2 "b" (by decide)⟩

/-- C5 witness: after `a` succeeds, its dependent `b` is Running and its
stored dependency `a` is Succeeded. -/
theorem claim_C5_witness :
    ∃ ed, alookup (finishSuccess (startThread (runStart (mkState [("a", none), ("b", some "a")])) "a") "a").threads "a" = some ed ∧ ed.status = 0 := by
  have hreach : Reachable (fun _ => True) [("a", none), ("b", some "a")] (finishSuccess (startThread (runStart (mkState [("a", none), ("b", some "a")])) "a") "a") :=
    Relation.ReflTransGen.tail
      (Relation.ReflTransGen.tail Relation.ReflTransGen.refl
        (Step.start _ "a" ⟨none, false, -1, none, none⟩ (by decide) rfl rfl))
      (Step.finishOk _ "a" ⟨none, true, -1, none, none⟩ (by decide) rfl rfl)
  exact @claim_C5 (fun _ => True) [("a", none), ("b", some "a")] (fun k => if k = "b" then 1 else 0) rankOK_pair
    (finishSuccess (startThread (runStart (mkState [("a", none), ("b", some "a")])) "a") "a") hreach "b" ⟨some "a", true, -1, none, none⟩ "a" (by decide) rfl rfl

/-- C6 witness: a state whose only task succeeded reports overall
success. -/
theorem claim_C6_witness :
    all_success ⟨[("a", ⟨none, true, 0, none, none⟩)], 1, 1, false, true⟩ = true :=
  (claim_C6 _).1.mpr (by decide)

/-- C7 witness: after a genuine failure of `a` with message `"boom"`, the
exception map contains `a` with its captured pair. -/
theorem claim_C7_witness :
    ("a", ((some (false, "boom") : Option (Bool × String)), (some "tb" : Option String)))
      ∈ get_exceptions (finishFailure (startThread (runStart (mkState [("a", none)])) "a") "a" false "boom" "tb") := by
  have hreach : Reachable (fun m => m ≠ "") [("a", none)] (finishFailure (startThread (runStart (mkState [("a", none)])) "a") "a" false "boom" "tb") :=
    Relation.ReflTransGen.tail
      (Relation.ReflTransGen.tail Relation.ReflTransGen.refl
        (Step.start _ "a" ⟨none, false, -1, none, none⟩ (by decide) rfl rfl))
      (Step.finishErr _ "a" ⟨none, true, -1, none, none⟩ false "boom" "tb" (by decide) rfl rfl
        (fun _ => by decide))
  exact ((claim_C7 [("a", none)] (fun _ => 0) rankOK_single hreach).1 "a"
    ((some (false, "boom") : Option (Bool × String)), (some "tb" : Option String))).mpr
    ⟨⟨none, true, 1, some (false, "boom"), some "tb"⟩, by decide, rfl, rfl⟩

/-- C8 witness: in the (reachable) initial one-task state, the pending task
carries no exception and no trace, as the equivalence requires. -/
theorem claim_C8_witness :
    (((⟨none, false, -1, none, none⟩ : TaskEntry).exception ≠ none
        ∨ (⟨none, false, -1, none, none⟩ : TaskEntry).stack_trace ≠ none)
      ↔ ((⟨none, false, -1, none, none⟩ : TaskEntry).status = 1
        ∨ (⟨none, false, -1, none, none⟩ : TaskEntry).status = 2)) :=
  @claim_C8 (fun _ => True) [("a", none)] (fun _ => 0) rankOK_single
    (runStart (mkState [("a", none)])) Relation.ReflTransGen.refl
    ("a", ⟨none, false, -1, none, none⟩) (by decide)

/-- C8 counterexample: a reachable run in which task `a` acknowledges an
abort: its terminal status is `2` (Aborted), yet the captured exception and
stack trace are populated — refuting the spec's "populated only when state
is Failed". -/
theorem claim_C8_counterexample :
    Reachable (fun _ => True) [("a", none)] (finishFailure (startThread (runStart (mkState [("a", none)])) "a") "a" true "stop" "tb")
    ∧ alookup (finishFailure (startThread (runStart (mkState [("a", none)])) "a") "a" true "stop" "tb").threads "a"
      = some ⟨none, true, 2, some (true, "stop"), some "tb"⟩ := by
  refine ⟨?_, by decide⟩
  exact Relation.ReflTransGen.tail
    (Relation.ReflTransGen.tail Relation.ReflTransGen.refl
      (Step.start _ "a" ⟨none, false, -1, none, none⟩ (by decide) rfl rfl))
    (Step.finishErr _ "a" ⟨none, true, -1, none, none⟩ true "stop" "tb" (by decide) rfl rfl
      (fun _ => trivial))

/-- C9 witness: the initial one-task state satisfies the counter bounds. -/
theorem claim_C9_witness :
    0 ≤ (runStart (mkState [("a", none)])).done_threads
    ∧ (runStart (mkState [("a", none)])).done_threads ≤ (1 : Int)
    ∧ (runStart (mkState [("a", none)])).num_threads = 1 :=
  @claim_C9 (fun _ => True) [("a", none)] (fun _ => 0) rankOK_single
    (runStart (mkState [("a", none)])) Relation.ReflTransGen.refl

/-- C10 witness: registering `"a"` twice leaves one stored task against a
counter of two, the re-registration overwrites the stored entry, and the
initial state of the run (like every reachable one) has `all_done`
false. -/
theorem claim_C10_witness :
    (mkState [("a", none), ("a", none)]).threads.length
      < (mkState [("a", none), ("a", none)]).num_threads
    ∧ (runStart (mkState [("a", none), ("a", none)])).all_done = false
    ∧ alookup (add_thread (mkState [("a", none)]) "a" none).threads "a"
      = some (newThread none) := by
  have happ := @claim_C10 (fun _ => True) [("a", none), ("a", none)] (fun _ => 0)
    rankOK_single (by decide)
  exact ⟨happ.2.1, happ.2.2 _ Relation.ReflTransGen.refl,
    (happ.1 (mkState [("a", none)]) "a" none (by decide)).2.1⟩
